import Mathlib

/-!
# duplicheck: the index store and the duplicate queries

A shallow embedding of `models/file.go`, `pkg/explorer/explorer.go`,
`pkg/utils/fileextensions.go` and `pkg/pagination/pagination.go`.

The index store (gorm over SQLite) is an external collaborator. It is
modelled as the list of live rows of the `files` table together with the two
ways the store can misbehave: a pending read fault (every `SELECT` reports
it) and a write fault oracle (an `INSERT` of a given record into the given
rows may be rejected). The timestamps of `gorm.Model` and the `Tags`
association are not part of the model: no function embedded here reads or
writes them.

The explorer is embedded function by function and sequentially: a channel is
the sequence of what was sent on it, a walk is the sequence of its visits, and
one worker is `processFiles` applied to the records it receives. The counters
`int64` and `uint` wrap around.
-/

namespace Duplicheck

/-- Errors are carried as their message. -/
abbrev Err := String

/-- The struct `models.File` (models/file.go, lines 9-20). -/
structure File where
  ID : Nat
  Name : String
  Ext : String
  Filetype : String
  Path : String
  Size : Nat
  Hash : String
  HasPreview : Bool
deriving DecidableEq, Repr

/-- The zero value `models.File{}`. -/
def File.zero : File :=
  { ID := 0, Name := "", Ext := "", Filetype := "", Path := "", Size := 0,
    Hash := "", HasPreview := false }

/-- The handle `*gorm.DB`: the rows of table `files` in storage order and the
store's fault behaviour. -/
structure DB where
  rows : List File
  readFault : Option Err
  writeFault : List File → File → Option Err

/-- The error gorm reports when `First` matches no row. -/
def ErrRecordNotFound : Err := "record not found"

/-- Comparison of two strings under SQLite's binary collation (`memcmp` on
the UTF-8 bytes, a proper prefix first), which on well-formed strings is the
lexicographic comparison of the code points. -/
def binaryLE : List Char → List Char → Bool
  | [], _ => true
  | _ :: _, [] => false
  | a :: as, b :: bs =>
    if a.toNat < b.toNat then true
    else if b.toNat < a.toNat then false
    else binaryLE as bs

/-- The clause `ORDER BY hash` (binary collation); rows of equal hash keep
their storage order. -/
def orderByHash (l : List File) : List File :=
  l.insertionSort (fun a b => binaryLE a.Hash.data b.Hash.data = true)

/-- The clause `ORDER BY id`. -/
def orderByID (l : List File) : List File :=
  l.insertionSort (fun a b => a.ID ≤ b.ID)

/-- What a gorm statement hands back: the destination it filled, its `Error`
field, and the store after the statement. -/
structure Result (α : Type) where
  dest : α
  Error : Option Err
  db : DB

/-- The call `db.Find(&files, cond)`: the rows satisfying `cond`. -/
def DB.Find (db : DB) (cond : File → Bool) : Result (List File) :=
  match db.readFault with
  | some e => { dest := [], Error := some e, db := db }
  | none => { dest := db.rows.filter cond, Error := none, db := db }

/-- The call `db.Where(cond).Order("hash").Find(&files)`. -/
def DB.FindOrderHash (db : DB) (cond : File → Bool) : Result (List File) :=
  match db.readFault with
  | some e => { dest := [], Error := some e, db := db }
  | none => { dest := orderByHash (db.rows.filter cond), Error := none, db := db }

/-- The call `db.First(file, cond)`: the matching row of least primary key;
the destination keeps its zero value when nothing matches or the statement
fails. -/
def DB.First (db : DB) (cond : File → Bool) : Result File :=
  match db.readFault with
  | some e => { dest := File.zero, Error := some e, db := db }
  | none =>
    match orderByID (db.rows.filter cond) with
    | [] => { dest := File.zero, Error := some ErrRecordNotFound, db := db }
    | r :: _ => { dest := r, Error := none, db := db }

/-- The primary key the store assigns to a row inserted without one. -/
def nextID (rows : List File) : Nat :=
  rows.foldr (fun r m => max r.ID m) 0 + 1

/-- The error of an `INSERT` whose primary key is taken. -/
def ErrUniqueID : Err := "UNIQUE constraint failed: files.id"

/-- The call `db.Create(&file)`: one `INSERT`. A zero primary key is assigned
by the store; a non-zero one is kept and has to be unused. -/
def DB.Create (db : DB) (file : File) : Result File :=
  match db.writeFault db.rows file with
  | some e => { dest := file, Error := some e, db := db }
  | none =>
    if file.ID = 0 then
      let row := { file with ID := nextID db.rows }
      { dest := row, Error := none, db := { db with rows := db.rows ++ [row] } }
    else if db.rows.any (fun r => decide (r.ID = file.ID)) then
      { dest := file, Error := some ErrUniqueID, db := db }
    else
      { dest := file, Error := none, db := { db with rows := db.rows ++ [file] } }

/-- The call `db.Transaction(fc)`: `fc` runs on the transaction handle; a
non-nil error rolls the store back to where it was and is returned, otherwise
the writes are committed. -/
def DB.Transaction (db : DB) (fc : DB → Option Err × DB) : Option Err × DB :=
  match fc db with
  | (some e, _) => (some e, db)
  | (none, tx) => (none, tx)

/-- The subquery `SELECT hash FROM files GROUP BY hash HAVING COUNT(*) > 1`
evaluated on the rows. -/
def duplicateHashQuery (rows : List File) : List String :=
  ((rows.map (fun r => r.Hash)).dedup).filter
    (fun h => decide (rows.countP (fun r => decide (r.Hash = h)) > 1))

/-- The method `File.FindDuplicateHashes` (models/file.go, lines 91-107),
with the store after the call. -/
def FindDuplicateHashes (db : DB) : Except Err (List File) × DB :=
  let dupHashes := duplicateHashQuery db.rows
  let result := db.FindOrderHash (fun r => decide (r.Hash ∈ dupHashes))
  match result.Error with
  | some e => (Except.error e, result.db)
  | none => (Except.ok result.dest, result.db)

/-- The method `File.CountDuplicateHashes` (models/file.go, lines 109-125),
with the store after the call. -/
def CountDuplicateHashes (db : DB) : Except Err Nat × DB :=
  let dupHashes := duplicateHashQuery db.rows
  let result := db.FindOrderHash (fun r => decide (r.Hash ∈ dupHashes))
  match result.Error with
  | some e => (Except.error e, result.db)
  | none => (Except.ok result.dest.length, result.db)

/-- The method `File.FindByHash` (models/file.go, lines 75-79), with the store
after the call; the error of the statement is dropped. -/
def FindByHash (db : DB) (hash : String) : List File × DB :=
  let result := db.Find (fun r => decide (r.Hash = hash))
  (result.dest, result.db)

/-- The method `File.IsFileInSameDir` (models/file.go, lines 81-89), with the
store after the call. -/
def IsFileInSameDir (db : DB) (filename fullpath : String) : Bool × DB :=
  let result := db.First (fun r => decide (r.Name = filename ∧ r.Path = fullpath))
  if result.dest.ID = 0 then (false, result.db) else (true, result.db)

/-- The method `File.Create` (models/file.go, lines 51-63): the error it
returns and the store after the call. -/
def Create (db : DB) (file : File) : Option Err × DB :=
  let present := IsFileInSameDir db file.Name file.Path
  if !present.1 then
    let result := present.2.Create file
    match result.Error with
    | some e => (some e, result.db)
    | none => (none, result.db)
  else (none, present.2)

/-- The loop of `saveBatch` (explorer.go, lines 138-154) on the transaction
handle: the first failing `Create` ends it with that error. -/
def saveBatchLoop : DB → List File → Option Err × DB
  | tx, [] => (none, tx)
  | tx, file :: files =>
    match Create tx file with
    | (some e, tx1) => (some e, tx1)
    | (none, tx1) => saveBatchLoop tx1 files

/-- The method `Explorer.saveBatch` (explorer.go, lines 136-157). -/
def saveBatch (db : DB) (files : List File) : Option Err × DB :=
  db.Transaction (fun tx => saveBatchLoop tx files)

/-! ## File types (pkg/utils/fileextensions.go) -/

/-- The function `unicode.SimpleFold` on code points: the next member of the
case orbit of `r`. The orbits that meet ASCII are given as in the Unicode
tables (`K k` and the Kelvin sign U+212A, `S s` and the long s U+017F, the
other letters in pairs); `rest` stands for the table of all other orbits. -/
def SimpleFold (rest : Nat → Nat) (r : Nat) : Nat :=
  if 65 ≤ r ∧ r ≤ 90 then r + 32
  else if r = 107 then 0x212A
  else if r = 115 then 0x17F
  else if 97 ≤ r ∧ r ≤ 122 then r - 32
  else if r < 128 then r
  else if r = 0x17F then 83
  else if r = 0x212A then 75
  else rest r

/-- The loop `for r != sr && r < tr { r = unicode.SimpleFold(r) }` of
`strings.EqualFold`; an orbit has at most four members, which bounds the
number of rounds. -/
def foldLoop (rest : Nat → Nat) : Nat → Nat → Nat → Nat → Nat
  | 0, _, _, r => r
  | n + 1, sr, tr, r =>
    if r ≠ sr ∧ r < tr then foldLoop rest n sr tr (SimpleFold rest r) else r

/-- The body of the loop of `strings.EqualFold` for one pair of runes. -/
def runeEqualFold (rest : Nat → Nat) (sr tr : Nat) : Bool :=
  if tr = sr then true
  else
    let lo := if tr < sr then tr else sr
    let hi := if tr < sr then sr else tr
    if hi < 128 then decide (65 ≤ lo ∧ lo ≤ 90 ∧ hi = lo + 32)
    else decide (foldLoop rest 4 lo hi (SimpleFold rest lo) = hi)

/-- The function `strings.EqualFold` on the runes of its two arguments. -/
def EqualFoldRunes (rest : Nat → Nat) : List Nat → List Nat → Bool
  | [], t => t.isEmpty
  | _ :: _, [] => false
  | sr :: s, tr :: t => runeEqualFold rest sr tr && EqualFoldRunes rest s t

/-- The function `strings.EqualFold`. -/
def EqualFold (rest : Nat → Nat) (s t : String) : Bool :=
  EqualFoldRunes rest (s.data.map Char.toNat) (t.data.map Char.toNat)

/-- The table `VideoExtensions`. -/
def VideoExtensions : List String :=
  ["mp4", "mkv", "avi", "mov", "wmv", "m4v", "flv", "webm", "mpeg", "3gp", "m4p", "m2ts",
   "mts", "vob", "ogv"]

/-- The table `ImageExtensions`. -/
def ImageExtensions : List String :=
  ["jpg", "jpeg", "png", "gif", "bmp", "tiff", "svg", "webp", "ico"]

/-- The table `DocumentExtensions`. -/
def DocumentExtensions : List String :=
  ["pdf", "doc", "docx", "xls", "xlsx", "ppt", "pptx", "txt", "rtf", "odt", "ods", "odp",
   "csv", "tsv", "epub", "md"]

/-- The function `IsVideoFile`. -/
def IsVideoFile (rest : Nat → Nat) (extension : String) : Bool :=
  VideoExtensions.any (fun ext => EqualFold rest extension ext)

/-- The function `IsImageFile`. -/
def IsImageFile (rest : Nat → Nat) (extension : String) : Bool :=
  ImageExtensions.any (fun ext => EqualFold rest extension ext)

/-- The function `IsDocumentFile`. -/
def IsDocumentFile (rest : Nat → Nat) (extension : String) : Bool :=
  DocumentExtensions.any (fun ext => EqualFold rest extension ext)

/-- The function `GetFiletype`. -/
def GetFiletype (rest : Nat → Nat) (ext : String) : String :=
  let ftype := "other"
  if IsVideoFile rest ext then "video"
  else if IsImageFile rest ext then "image"
  else if IsDocumentFile rest ext then "document"
  else ftype

/-! ## The explorer (pkg/explorer/explorer.go) -/

/-- The loop of `filepath.Ext` from the end of the path: `before` is the part
not yet scanned, last character first, `after` the part already passed. The
separator is the one of Unix. -/
def ExtLoop : List Char → List Char → List Char
  | [], _ => []
  | c :: before, after =>
    if c = '/' then []
    else if c = '.' then c :: after
    else ExtLoop before (c :: after)

/-- The function `filepath.Ext`. -/
def Ext (path : String) : String :=
  String.mk (ExtLoop path.data.reverse [])

/-- An open file `*os.File`: what `Stat`, `Seek` and the read of its bytes
give. -/
structure OSFile where
  statErr : Option Err
  Name : String
  IsDir : Bool
  Size : Int
  offset : Nat
  seekErr : Option Err
  readErr : Option Err
  content : List Nat

/-- The library and the file system under the explorer: `os.Open`,
`filepath.Dir`, the digest `sha256` on bytes, and the case orbits of Unicode
outside ASCII. -/
structure Lib where
  Open : String → Except Err OSFile
  Dir : String → String
  Sum256 : List Nat → List Nat
  caseOrbit : Nat → Nat

/-- The digit table of `encoding/hex`. -/
def hextable : List Char := "0123456789abcdef".data

/-- The function `hex.EncodeToString` on a sequence of bytes. -/
def EncodeToString (src : List Nat) : String :=
  String.mk (src.flatMap (fun v =>
    [hextable.getD ((v % 256) / 16) '0', hextable.getD (v % 16) '0']))

/-- The method `Explorer.GetFileHash` (explorer.go, lines 225-237): the stream
is put back to its start and read to its end. -/
def GetFileHash (w : Lib) (file : OSFile) : Except Err String :=
  match file.seekErr with
  | some err => Except.error ("error reseteando posición del archivo: " ++ err)
  | none =>
    let file := { file with offset := 0 }
    match file.readErr with
    | some err => Except.error ("error calculando hash: " ++ err)
    | none => Except.ok (EncodeToString (w.Sum256 (file.content.drop file.offset)))

/-- The conversion `uint(info.Size())` of an `int64` on a 64-bit platform. -/
def uintOfInt64 (n : Int) : Nat :=
  (n % 2 ^ 64).toNat

/-- The method `Explorer.getFileInfo` (explorer.go, lines 188-223). -/
def getFileInfo (w : Lib) (path : String) : Except Err File :=
  match w.Open path with
  | Except.error err => Except.error ("error abriendo archivo: " ++ err)
  | Except.ok file =>
    match file.statErr with
    | some err => Except.error ("error obteniendo stats: " ++ err)
    | none =>
      if file.IsDir then Except.ok File.zero
      else
        match GetFileHash w file with
        | Except.error err => Except.error ("error calculando hash: " ++ err)
        | Except.ok checksum =>
          let ext := Ext file.Name
          let ext := if ext ≠ "" then String.mk (ext.data.drop 1) else ext
          Except.ok
            { ID := 0, Name := file.Name, Ext := ext,
              Filetype := GetFiletype w.caseOrbit ext, Size := uintOfInt64 file.Size,
              Path := w.Dir path, Hash := checksum, HasPreview := false }

/-- One call of the function handed to `filepath.Walk`: the path, whether the
entry is a directory, and the error the walk met at it. -/
structure WalkEntry where
  path : String
  IsDir : Bool
  err : Option Err

/-- The function `filepath.Walk` as its callback sees it: `entries` is the
sequence of visits the walk makes while the callback returns nil, and the
first error the callback returns ends the walk and is its result. -/
def Walk {σ : Type} (fn : σ → WalkEntry → σ × Option Err) : List WalkEntry → σ → σ × Option Err
  | [], s => (s, none)
  | x :: entries, s =>
    match fn s x with
    | (s1, some e) => (s1, some e)
    | (s1, none) => Walk fn entries s1

/-- The struct `Progress`. -/
structure Progress where
  TotalFiles : Int
  ProcessedFiles : Int

/-- The struct `Explorer`; a channel is the sequence of what was sent on it. -/
structure Explorer where
  DB : DB
  MaxWorkers : Int
  BatchSize : Int
  filesChan : List File
  errorsChan : List Err
  progress : Progress

/-- The callback of `traverseDirectory` (explorer.go, lines 167-185). -/
def traverseFn (w : Lib) (e : Explorer) (x : WalkEntry) : Explorer × Option Err :=
  match x.err with
  | some err =>
    ({ e with errorsChan := e.errorsChan ++ ["error accediendo a " ++ x.path ++ ": " ++ err] },
      none)
  | none =>
    if !x.IsDir then
      match getFileInfo w x.path with
      | Except.error err =>
        ({ e with errorsChan :=
            e.errorsChan ++ ["error procesando " ++ x.path ++ ": " ++ err] }, none)
      | Except.ok fileInfo =>
        if fileInfo.Size > 0 then
          ({ e with filesChan := e.filesChan ++ [fileInfo] }, none)
        else (e, none)
    else (e, none)

/-- The method `Explorer.traverseDirectory` (explorer.go, lines 166-186) on
the visits of the walk of `dir`. -/
def traverseDirectory (w : Lib) (entries : List WalkEntry) (e : Explorer) :
    Explorer × Option Err :=
  Walk (traverseFn w) entries e

/-- The record the streaming pass is to forward for a visit, if any: the one
of a non-directory entry met without error whose metadata extraction
succeeded with a size above 0. -/
def forwarded (w : Lib) (x : WalkEntry) : Option File :=
  if x.err = none ∧ x.IsDir = false then
    match getFileInfo w x.path with
    | Except.ok f => if 0 < f.Size then some f else none
    | Except.error _ => none
  else none

/-- The fold key of a rune for comparison with lower-case ASCII: capitals go
to their small letter, the Kelvin sign to `k`, the long s to `s`. -/
def foldKey (r : Nat) : Nat :=
  if 65 ≤ r ∧ r ≤ 90 then r + 32
  else if r = 0x212A then 107
  else if r = 0x17F then 115
  else r

/-- A rune that is a small ASCII letter or a digit. -/
def lowerAlnum (r : Nat) : Prop := (97 ≤ r ∧ r ≤ 122) ∨ (48 ≤ r ∧ r ≤ 57)

instance (r : Nat) : Decidable (lowerAlnum r) := by
  unfold lowerAlnum
  infer_instance

/-- The runes of a string. -/
def runes (s : String) : List Nat := s.data.map Char.toNat

/-- The rows the duplicate query selects: those whose hash is held by at
least two rows of the index. -/
def isDuplicate (rows : List File) (r : File) : Bool :=
  decide (2 ≤ rows.countP (fun s => decide (s.Hash = r.Hash)))

/-- A store as gorm leaves it: no row carries the primary key zero. -/
def DB.WellFormed (db : DB) : Prop :=
  ∀ r ∈ db.rows, r.ID ≠ 0

/-- The index holds a row at the location `(name, path)`. -/
def locationPresent (rows : List File) (name path : String) : Prop :=
  ∃ r ∈ rows, r.Name = name ∧ r.Path = path

instance (rows : List File) (name path : String) :
    Decidable (locationPresent rows name path) := by
  unfold locationPresent
  infer_instance

/-- Creating some record of the batch fails with `e`: the loop of `saveBatch`
gets through the records before it and the `Create` of that record returns
`e`. -/
def CreateFailsWith (db : DB) (batch : List File) (e : Err) : Prop :=
  ∃ pre f suf tx tx1, batch = pre ++ f :: suf ∧ saveBatchLoop db pre = (none, tx) ∧
    Create tx f = (some e, tx1)

/-- A store without rows and without faults. -/
def emptyDB : DB := { rows := [], readFault := none, writeFault := fun _ _ => none }

/-- The record the pipeline builds for a one-byte file of directory `/d`. -/
def recordOf (name hash : String) : File :=
  { ID := 0, Name := name, Ext := "txt", Filetype := "document", Path := "/d", Size := 1,
    Hash := hash, HasPreview := false }

/-- The SHA-256 digest of the content `X`, in hexadecimal. -/
def hashX : String := "4b68ab3847feda7d6c62c1fbcbeebfa35eab7351ed5e78f4ddadea5df64b8015"

/-- The SHA-256 digest of the content `Y`, in hexadecimal. -/
def hashY : String := "18f5384d58bcb1bba0bcd9e6a6781d1a6ac2cc280c330ecbab6cb7931b721552"

/-- Two records have the same location `(Name, Path)`. -/
def sameLocation (x y : File) : Prop :=
  x.Name = y.Name ∧ x.Path = y.Path

instance (x y : File) : Decidable (sameLocation x y) := by
  unfold sameLocation
  infer_instance

/-- The batch of the three files `a.txt` (content `X`), `b.txt` (content `X`)
and `c.txt` (content `Y`) of one directory. -/
def batchABC : List File := [recordOf "a.txt" hashX, recordOf "b.txt" hashX, recordOf "c.txt" hashY]

/-- A batch that names the location of `a.txt` twice, with two contents. -/
def batchAA : List File := [recordOf "a.txt" hashX, recordOf "a.txt" hashY]

/-- A store whose inserts are refused once the index holds a row. -/
def dbFullAfterOne : DB :=
  { rows := [], readFault := none,
    writeFault := fun rows _ => if rows.length = 0 then none else some "disk full" }

/-- A file system that holds the one file `/d/PHOTO.JPG`, of three bytes, and
a digest that returns its input. -/
def libPhoto : Lib :=
  { Open := fun path =>
      if path = "/d/PHOTO.JPG" then
        Except.ok { statErr := none, Name := "PHOTO.JPG", IsDir := false, Size := 3, offset := 0,
                    seekErr := none, readErr := none, content := [1, 2, 3] }
      else Except.error "no such file or directory",
    Dir := fun _ => "/d",
    Sum256 := fun bytes => bytes,
    caseOrbit := fun r => r }

/-- An index of three rows: `c.txt` alone in its hash, `a.txt` and `b.txt`
sharing one. -/
def db3 : DB :=
  { rows := [{ recordOf "c.txt" hashY with ID := 1 }, { recordOf "a.txt" hashX with ID := 2 },
      { recordOf "b.txt" hashX with ID := 3 }],
    readFault := none, writeFault := fun _ _ => none }

/-- The index of three rows on a store whose lookups fail. -/
def db3Fault : DB :=
  { db3 with readFault := some "database is locked" }

/-- Equality of two strings but for case, as it stands for a word of ASCII
letters and digits: the same number of runes, and rune by rune the same
letter once capitals are read as small letters, the Kelvin sign as `k` and the
long s as `s`. -/
def equalsIgnoringCase (s e : String) : Prop :=
  (runes s).map foldKey = (runes e).map foldKey

instance (s e : String) : Decidable (equalsIgnoringCase s e) := by
  unfold equalsIgnoringCase
  infer_instance

/-! ## The workers and the scan (pkg/explorer/explorer.go) -/

/-- The value an `int64` takes after an arithmetic result `n`: it wraps
around at 2^63. -/
def wrapInt64 (n : Int) : Int :=
  (n + 9223372036854775808) % 18446744073709551616 - 9223372036854775808

/-- The method `Progress.increment` (explorer.go, lines 48-54) on the
counter; the line it prints is not part of the state. -/
def Progress.increment (p : Progress) : Progress :=
  { p with ProcessedFiles := wrapInt64 (p.ProcessedFiles + 1) }

/-- One run of `processFiles`: the explorer it acts on, its local `batch`,
and the batches it has handed to `saveBatch` so far, in the order of the
calls. -/
structure Worker where
  e : Explorer
  batch : List File
  saved : List (List File)

/-- The three statements that flush the batch (explorer.go, lines 120-123 and
129-132): `saveBatch`, the report of its error on the error queue, and
`increment`. -/
def Worker.flush (s : Worker) (msg : String) : Worker :=
  let r := saveBatch s.e.DB s.batch
  let errorsChan :=
    match r.1 with
    | some err => s.e.errorsChan ++ [msg ++ err]
    | none => s.e.errorsChan
  { s with
    e := { s.e with DB := r.2, errorsChan := errorsChan, progress := s.e.progress.increment },
    saved := s.saved ++ [s.batch] }

/-- The body of the loop `for file := range e.filesChan` of `processFiles`
(explorer.go, lines 116-126). -/
def processStep (s : Worker) (file : File) : Worker :=
  let s := { s with batch := s.batch ++ [file] }
  if (s.batch.length : Int) ≥ s.e.BatchSize then
    { s.flush "error guardando lote: " with batch := [] }
  else s

/-- The worker as it enters its loop: `batch` is empty. -/
def Worker.start (e : Explorer) : Worker :=
  { e := e, batch := [], saved := [] }

/-- The method `Explorer.processFiles` (explorer.go, lines 111-134) for the
records `drained` that this worker receives from the record queue until the
queue is closed. -/
def processFiles (e : Explorer) (drained : List File) : Worker :=
  let s := drained.foldl processStep (Worker.start e)
  if s.batch.length > 0 then s.flush "error guardando último lote: "
  else s

/-- The callback of `countFiles` (explorer.go, lines 99-107). -/
def countFn (count : Int) (x : WalkEntry) : Int × Option Err :=
  match x.err with
  | some err => (count, some err)
  | none => if !x.IsDir then (wrapInt64 (count + 1), none) else (count, none)

/-- The method `Explorer.countFiles` (explorer.go, lines 97-109) on the visits
of the walk of `dir`. -/
def countFiles (entries : List WalkEntry) : Int × Option Err :=
  Walk countFn entries 0

/-- The method `Explorer.Scan` (explorer.go, lines 56-94) up to the closing
of the record queue: the counting pass and the streaming pass over the visits
of the walk of `path2scan`, with the error lines `Scan` itself prints. The
worker goroutines that drain the queue meanwhile are not in this sequential
embedding; what they are handed is `filesChan`. -/
def Scan (w : Lib) (entries : List WalkEntry) (e : Explorer) : Explorer × List String :=
  let counted := countFiles entries
  let e := { e with progress := { e.progress with TotalFiles := counted.1 } }
  match counted.2 with
  | some err => (e, ["Error contando archivos: " ++ err])
  | none =>
    let traversed := traverseDirectory w entries e
    match traversed.2 with
    | some err => (traversed.1, ["Error en el escaneo inicial: " ++ err])
    | none => (traversed.1, [])

/-- The number of batches of `b` records it takes to hold `n` records. -/
def ceilDiv (n b : Nat) : Nat := (n + b - 1) / b

/-- An explorer over the empty index with the given batch size. -/
def explorerOf (batchSize : Int) : Explorer :=
  { DB := emptyDB, MaxWorkers := 5, BatchSize := batchSize, filesChan := [], errorsChan := [],
    progress := { TotalFiles := 0, ProcessedFiles := 0 } }

/-- An explorer with batch size 2 over a store that refuses every insert but
the first into the empty index. -/
def explorerFailing : Explorer :=
  { explorerOf 2 with DB := dbFullAfterOne }

/-- The file system of `libPhoto` with a digest of 32 bytes. -/
def libDigest : Lib :=
  { libPhoto with
    Sum256 := fun bytes => (List.range 32).map (fun i => (bytes.foldl (fun a v => a + v) i) % 256) }

/-- Two open files of the same three bytes, under two names and at two read
positions. -/
def osFileA : OSFile :=
  { statErr := none, Name := "a.bin", IsDir := false, Size := 3, offset := 0, seekErr := none,
    readErr := none, content := [1, 2, 3] }

/-- The second of the two open files of the same bytes. -/
def osFileB : OSFile :=
  { statErr := none, Name := "b.bin", IsDir := false, Size := 3, offset := 2, seekErr := none,
    readErr := none, content := [1, 2, 3] }

/-- Five records of five locations. -/
def fiveRecords : List File :=
  [recordOf "a.txt" hashX, recordOf "b.txt" hashX, recordOf "c.txt" hashY,
   recordOf "d.txt" hashY, recordOf "e.txt" hashX]

/-! ## Pagination (pkg/pagination/pagination.go) -/

/-- The struct `Pagination`; its fields are `uint`, of 64 bits. -/
structure Pagination where
  PageFirst : Nat
  PageLast : Nat
  PageCurrent : Nat
  PageNext : Nat
  PagePrev : Nat
  ItemsPerPage : Nat
  TotalItems : Nat
deriving DecidableEq, Repr

/-- The value a `uint` takes after an arithmetic result `n`. -/
def wrapUint (n : Int) : Nat :=
  (n % 18446744073709551616).toNat

/-- The method `Pagination.calculatePages` (pagination.go, lines 33-45);
`none` is the panic of the division by zero. -/
def Pagination.calculatePages (p : Pagination) (totalItems : Nat) : Option Pagination :=
  if totalItems ≥ p.ItemsPerPage then
    if p.ItemsPerPage = 0 then none
    else
      let pages := totalItems / p.ItemsPerPage
      let pagesMod := totalItems % p.ItemsPerPage
      let pages := if pagesMod > p.ItemsPerPage then wrapUint ((pages : Int) + 1) else pages
      some { p with PageLast := pages }
  else some { p with PageLast := 1 }

/-- The function `NewPagination` (pagination.go, lines 15-31). -/
def NewPagination (currentPage itemsPerPage totalItems : Nat) : Option Pagination :=
  let p : Pagination :=
    { PageFirst := 1, PageLast := 0, PageCurrent := currentPage, PageNext := 0, PagePrev := 0,
      ItemsPerPage := itemsPerPage, TotalItems := totalItems }
  match p.calculatePages totalItems with
  | none => none
  | some p =>
    let p := if wrapUint ((currentPage : Int) + 1) ≤ p.PageLast then
        { p with PageNext := wrapUint ((p.PageNext : Int) + 1) } else p
    let p := if wrapUint ((currentPage : Int) - 1) > p.PageFirst then
        { p with PagePrev := wrapUint ((p.PagePrev : Int) - 1) } else p
    some p

/-! ## Data of the examples -/

/-- The visits of the walk of a directory `/d` that holds `a.txt`, a
directory `locked` that cannot be read, and `z.txt`. -/
def walkLocked : List WalkEntry :=
  [{ path := "/d", IsDir := true, err := none },
   { path := "/d/a.txt", IsDir := false, err := none },
   { path := "/d/locked", IsDir := true, err := some "open /d/locked: permission denied" },
   { path := "/d/z.txt", IsDir := false, err := none }]

/-- The file system under `walkLocked`: the two files open and hold one byte
each. -/
def libLocked : Lib :=
  { Open := fun path =>
      if path = "/d/a.txt" then
        Except.ok { statErr := none, Name := "a.txt", IsDir := false, Size := 1, offset := 0,
                    seekErr := none, readErr := none, content := [88] }
      else if path = "/d/z.txt" then
        Except.ok { statErr := none, Name := "z.txt", IsDir := false, Size := 1, offset := 0,
                    seekErr := none, readErr := none, content := [89] }
      else Except.error "permission denied",
    Dir := fun _ => "/d",
    Sum256 := fun bytes => (List.range 32).map (fun i => (bytes.foldl (fun a v => a + v) i) % 256),
    caseOrbit := fun r => r }

/-! # Theorems -/

/-! ## The order of `ORDER BY hash` -/

theorem char_eq_of_toNat_eq (p q : Char) (h : p.toNat = q.toNat) : p = q := by
  apply Char.ext; apply UInt32.ext; exact h

theorem binaryLE_iff_not_lt (x y : List Char) : binaryLE x y = true ↔ ¬ y < x := by
  induction x generalizing y with
  | nil => simp [binaryLE]
  | cons c cs ih =>
    cases y with
    | nil =>
      simp [binaryLE]
      exact List.nil_lt_cons c cs
    | cons d ds =>
      have hlt : ∀ p q : Char, p < q ↔ p.toNat < q.toNat := fun p q => Iff.rfl
      unfold binaryLE
      by_cases h1 : c.toNat < d.toNat
      · simp only [h1, if_true, true_iff]
        intro h
        change List.Lex (· < ·) _ _ at h
        cases h with
        | cons h => omega
        | rel h => have := (hlt _ _).mp h; omega
      · by_cases h2 : d.toNat < c.toNat
        · simp only [h1, h2, if_true, if_false, Bool.false_eq_true, false_iff, not_not]
          exact List.Lex.rel ((hlt _ _).mpr h2)
        · have hcd : c = d := char_eq_of_toNat_eq c d (by omega)
          subst hcd
          simp only [h1, if_false, ih ds]
          constructor
          · intro hn h
            change List.Lex (· < ·) _ _ at h
            cases h with
            | cons h => exact hn h
            | rel h => exact h2 ((hlt _ _).mp h)
          · intro hn h
            exact hn (List.Lex.cons h)

/-- The binary collation agrees with the order of `String`. -/
theorem binaryLE_iff (a b : String) : binaryLE a.data b.data = true ↔ a ≤ b := by
  rw [String.le_iff_toList_le, ← not_lt]
  exact binaryLE_iff_not_lt a.data b.data

theorem hashLE_total : IsTotal File (fun a b => binaryLE a.Hash.data b.Hash.data = true) :=
  ⟨fun a b => by
    simp only [binaryLE_iff]
    exact le_total a.Hash b.Hash⟩

theorem hashLE_trans : IsTrans File (fun a b => binaryLE a.Hash.data b.Hash.data = true) :=
  ⟨fun a b c => by
    simp only [binaryLE_iff]
    exact le_trans⟩

theorem orderByHash_perm (l : List File) : (orderByHash l).Perm l :=
  List.perm_insertionSort _ l

theorem orderByHash_sorted (l : List File) :
    (orderByHash l).Sorted (fun a b => a.Hash ≤ b.Hash) := by
  haveI := hashLE_total
  haveI := hashLE_trans
  have h := List.sorted_insertionSort (fun a b : File => binaryLE a.Hash.data b.Hash.data = true) l
  exact List.Pairwise.imp (fun {a b} hab => (binaryLE_iff a.Hash b.Hash).mp hab) h

theorem orderByHash_length (l : List File) : (orderByHash l).length = l.length :=
  (orderByHash_perm l).length_eq

/-! ## The duplicate queries -/

theorem mem_duplicateHashQuery (rows : List File) (h : String) :
    h ∈ duplicateHashQuery rows ↔ 2 ≤ rows.countP (fun r => decide (r.Hash = h)) := by
  unfold duplicateHashQuery
  simp only [List.mem_filter, List.mem_dedup, List.mem_map, decide_eq_true_eq]
  constructor
  · rintro ⟨_, hc⟩
    exact hc
  · intro hc
    refine ⟨?_, hc⟩
    have hpos : 0 < rows.countP (fun r => decide (r.Hash = h)) := by omega
    obtain ⟨r, hr, hrh⟩ := List.countP_pos_iff.mp hpos
    exact ⟨r, hr, by simpa using hrh⟩

theorem duplicate_cond_eq (rows : List File) :
    (fun r : File => decide (r.Hash ∈ duplicateHashQuery rows)) = isDuplicate rows := by
  funext r
  simp only [isDuplicate, mem_duplicateHashQuery]

theorem FindDuplicateHashes_ok (db : DB) (hread : db.readFault = none) :
    FindDuplicateHashes db =
      (Except.ok (orderByHash (db.rows.filter (isDuplicate db.rows))), db) := by
  simp only [FindDuplicateHashes, DB.FindOrderHash, hread, duplicate_cond_eq]

theorem CountDuplicateHashes_ok (db : DB) (hread : db.readFault = none) :
    CountDuplicateHashes db =
      (Except.ok (orderByHash (db.rows.filter (isDuplicate db.rows))).length, db) := by
  simp only [CountDuplicateHashes, DB.FindOrderHash, hread, duplicate_cond_eq]

/-- C1: when the store answers the query, FindDuplicateHashes returns a list
that holds exactly the rows whose hash is shared by at least two rows of the
index, each as often as the index holds it, and that is in non-decreasing
order of hash. -/
theorem FindDuplicateHashes_spec (db : DB) (hread : db.readFault = none) :
    ∃ files, (FindDuplicateHashes db).1 = Except.ok files ∧
      files.Perm (db.rows.filter
        (fun r => decide (2 ≤ db.rows.countP (fun s => decide (s.Hash = r.Hash))))) ∧
      (∀ r, r ∈ files ↔
        r ∈ db.rows ∧ 2 ≤ db.rows.countP (fun s => decide (s.Hash = r.Hash))) ∧
      files.Sorted (fun a b => a.Hash ≤ b.Hash) := by
  refine ⟨_, congrArg Prod.fst (FindDuplicateHashes_ok db hread), orderByHash_perm _, ?_,
    orderByHash_sorted _⟩
  intro r
  rw [(orderByHash_perm _).mem_iff]
  simp [isDuplicate]

/-- Witness of C1 on an index of three rows: the two rows of the shared hash
are returned, the third is not. -/
theorem FindDuplicateHashes_spec_witness :
    db3.readFault = none ∧
    ∃ files, (FindDuplicateHashes db3).1 = Except.ok files ∧
      files.Perm (db3.rows.filter
        (fun r => decide (2 ≤ db3.rows.countP (fun s => decide (s.Hash = r.Hash))))) ∧
      (∀ r, r ∈ files ↔
        r ∈ db3.rows ∧ 2 ≤ db3.rows.countP (fun s => decide (s.Hash = r.Hash))) ∧
      files.Sorted (fun a b => a.Hash ≤ b.Hash) :=
  ⟨rfl, FindDuplicateHashes_spec db3 rfl⟩

/-- C2: CountDuplicateHashes returns the length of the list FindDuplicateHashes
returns on the same store and fails, with the same error, exactly when that
one fails; when the store answers, the number is the number of rows whose hash
is shared, one per row and not one per hash. -/
theorem CountDuplicateHashes_eq_length (db : DB) :
    (CountDuplicateHashes db).1 =
      (match (FindDuplicateHashes db).1 with
       | Except.ok files => Except.ok files.length
       | Except.error e => Except.error e) ∧
    (∀ e, (CountDuplicateHashes db).1 = Except.error e ↔
      (FindDuplicateHashes db).1 = Except.error e) ∧
    (db.readFault = none →
      (CountDuplicateHashes db).1 = Except.ok (db.rows.countP
        (fun r => decide (2 ≤ db.rows.countP (fun s => decide (s.Hash = r.Hash)))))) := by
  refine ⟨?_, ?_, ?_⟩
  · cases h : db.readFault <;> simp [CountDuplicateHashes, FindDuplicateHashes, DB.FindOrderHash, h]
  · intro e
    cases h : db.readFault <;> simp [CountDuplicateHashes, FindDuplicateHashes, DB.FindOrderHash, h]
  · intro h
    rw [CountDuplicateHashes_ok db h, orderByHash_length, ← List.countP_eq_length_filter]
    rfl

/-- Witness of C2: on the index of three rows the count is 2, the number of
rows of the one shared hash. -/
theorem CountDuplicateHashes_eq_length_witness :
    db3.readFault = none ∧ (CountDuplicateHashes db3).1 = Except.ok 2 ∧
    (FindDuplicateHashes db3).1 =
      Except.ok [{ recordOf "a.txt" hashX with ID := 2 }, { recordOf "b.txt" hashX with ID := 3 }] :=
  ⟨rfl, ((CountDuplicateHashes_eq_length db3).2.2 rfl).trans rfl, rfl⟩

/-! ## Create and the location key -/

theorem orderByID_perm (l : List File) : (orderByID l).Perm l :=
  List.perm_insertionSort _ l

theorem IsFileInSameDir_db (db : DB) (name path : String) :
    (IsFileInSameDir db name path).2 = db := by
  unfold IsFileInSameDir DB.First
  cases db.readFault with
  | some e => simp [File.zero]
  | none =>
    cases orderByID (db.rows.filter
      (fun r => decide (r.Name = name ∧ r.Path = path))) <;> simp <;> split <;> rfl

theorem IsFileInSameDir_iff (db : DB) (hwf : db.WellFormed) (hread : db.readFault = none)
    (name path : String) :
    (IsFileInSameDir db name path).1 = true ↔ locationPresent db.rows name path := by
  unfold IsFileInSameDir DB.First
  simp only [hread]
  cases h : orderByID (db.rows.filter (fun r => decide (r.Name = name ∧ r.Path = path))) with
  | nil =>
    have hperm := orderByID_perm (db.rows.filter (fun r => decide (r.Name = name ∧ r.Path = path)))
    rw [h] at hperm
    have hnil := hperm.symm.eq_nil
    simp only [File.zero, if_true, Bool.false_eq_true, false_iff]
    rintro ⟨r, hr, hn, hp⟩
    have : r ∈ db.rows.filter (fun r => decide (r.Name = name ∧ r.Path = path)) := by
      simp [List.mem_filter, hr, hn, hp]
    rw [hnil] at this
    exact List.not_mem_nil _ this
  | cons r rest =>
    have hperm := orderByID_perm (db.rows.filter (fun r => decide (r.Name = name ∧ r.Path = path)))
    rw [h] at hperm
    have hmem : r ∈ db.rows.filter (fun r => decide (r.Name = name ∧ r.Path = path)) :=
      hperm.mem_iff.mp (List.mem_cons_self _ _)
    simp only [List.mem_filter, decide_eq_true_eq] at hmem
    have hid : r.ID ≠ 0 := hwf r hmem.1
    simp only [hid, if_false, true_iff]
    exact ⟨r, hmem.1, hmem.2.1, hmem.2.2⟩

/-- The row `db.Create` stores for `file`. -/
theorem Create_of_present (db : DB) (hwf : db.WellFormed) (hread : db.readFault = none)
    (f : File) (h : locationPresent db.rows f.Name f.Path) : Create db f = (none, db) := by
  have h1 := (IsFileInSameDir_iff db hwf hread f.Name f.Path).mpr h
  unfold Create
  simp only [h1, Bool.not_true, Bool.false_eq_true, if_false, IsFileInSameDir_db]

theorem Create_of_absent (db : DB) (hwf : db.WellFormed) (hread : db.readFault = none)
    (f : File) (h : ¬ locationPresent db.rows f.Name f.Path) :
    Create db f = ((db.Create f).Error, (db.Create f).db) := by
  have h1 : (IsFileInSameDir db f.Name f.Path).1 = false := by
    cases hb : (IsFileInSameDir db f.Name f.Path).1 with
    | false => rfl
    | true => exact absurd ((IsFileInSameDir_iff db hwf hread f.Name f.Path).mp hb) h
  unfold Create
  simp only [h1, Bool.not_false, if_true, IsFileInSameDir_db]
  cases (db.Create f).Error <;> rfl

theorem DB_Create_ok (db : DB) (f : File) (hw : db.writeFault db.rows f = none)
    (hid : f.ID = 0 ∨ ∀ r ∈ db.rows, r.ID ≠ f.ID) :
    db.Create f = { dest := { f with ID := if f.ID = 0 then nextID db.rows else f.ID },
                    Error := none,
                    db := { db with rows := db.rows ++
                      [{ f with ID := if f.ID = 0 then nextID db.rows else f.ID }] } } := by
  unfold DB.Create
  simp only [hw]
  by_cases h0 : f.ID = 0
  · simp only [h0, if_true]
  · have hany : (db.rows.any (fun r => decide (r.ID = f.ID))) = false := by
      rcases hid with hid | hid
      · exact absurd hid h0
      · simp only [List.any_eq_false, decide_eq_true_eq]
        exact hid
    simp only [h0, if_false, hany, Bool.false_eq_true]

theorem IsFileInSameDir_of_absent (db : DB) (name path : String)
    (h : ¬ locationPresent db.rows name path) : (IsFileInSameDir db name path).1 = false := by
  unfold IsFileInSameDir DB.First
  cases db.readFault with
  | some e => simp [File.zero]
  | none =>
    have hperm := orderByID_perm (db.rows.filter (fun r => decide (r.Name = name ∧ r.Path = path)))
    cases hs : orderByID (db.rows.filter (fun r => decide (r.Name = name ∧ r.Path = path))) with
    | nil => simp [File.zero]
    | cons r rest =>
      rw [hs] at hperm
      have hmem : r ∈ db.rows.filter (fun r => decide (r.Name = name ∧ r.Path = path)) :=
        hperm.mem_iff.mp (List.mem_cons_self _ _)
      simp only [List.mem_filter, decide_eq_true_eq] at hmem
      exact absurd ⟨r, hmem.1, hmem.2.1, hmem.2.2⟩ h

/-- Whatever the store, a record at a location the index does not hold goes
to the insert. -/
theorem Create_of_absent_any (db : DB) (f : File)
    (h : ¬ locationPresent db.rows f.Name f.Path) :
    Create db f = ((db.Create f).Error, (db.Create f).db) := by
  have h1 := IsFileInSameDir_of_absent db f.Name f.Path h
  unfold Create
  simp only [h1, Bool.not_false, if_true, IsFileInSameDir_db]
  cases (db.Create f).Error <;> rfl

/-- C3, as stated, fails: on the index of three rows with a store whose
lookups fail, Create of a record at the location of a.txt, which the index
holds, returns no error and appends a fourth row (IsFileInSameDir drops the
error of the lookup and reads the empty result as absent). -/
theorem Create_lookup_fault_counterexample :
    locationPresent db3Fault.rows (recordOf "a.txt" hashY).Name (recordOf "a.txt" hashY).Path ∧
    (Create db3Fault (recordOf "a.txt" hashY)).1 = none ∧
    (Create db3Fault (recordOf "a.txt" hashY)).2.rows =
      db3Fault.rows ++ [{ recordOf "a.txt" hashY with ID := 4 }] ∧
    (Create db3Fault (recordOf "a.txt" hashY)).2.rows ≠ db3Fault.rows :=
  ⟨by decide, rfl, rfl, by decide⟩

/-- C3, amended: File.Create is keyed on the location only. When a row with
the Name and Path of f is in the index, the lookup answers and no row has the
primary key 0, Create returns no error and the store is as before, whatever
the hash of f. When no row with the Name and Path of f is in the index and the
insert is not refused (no write fault, primary key zero or unused), Create
returns no error and the index is the old one followed by the one row f, under
the primary key the store gave it, and this whatever hashes the index already
holds. -/
theorem Create_keyed_on_location (db : DB) (f : File) :
    (db.WellFormed → db.readFault = none → locationPresent db.rows f.Name f.Path →
      Create db f = (none, db)) ∧
    (¬ locationPresent db.rows f.Name f.Path → db.writeFault db.rows f = none →
      (f.ID = 0 ∨ ∀ r ∈ db.rows, r.ID ≠ f.ID) →
      Create db f = (none, { db with rows := db.rows ++
        [{ f with ID := if f.ID = 0 then nextID db.rows else f.ID }] })) := by
  refine ⟨fun hwf hread => Create_of_present db hwf hread f, ?_⟩
  intro habs hw hid
  rw [Create_of_absent_any db f habs, DB_Create_ok db f hw hid]

theorem db3_wellFormed : db3.WellFormed := by
  intro r hr
  simp only [db3, List.mem_cons, List.mem_singleton, List.not_mem_nil, or_false] at hr
  rcases hr with rfl | rfl | rfl <;> decide

/-- Witness of C3 on the index of three rows: a record at the location of
`a.txt` with another hash changes nothing, a record at the new location
`d.txt` is appended although its hash is already in the index. -/
theorem Create_keyed_on_location_witness :
    db3.WellFormed ∧ db3.readFault = none ∧
    (Create db3 (recordOf "a.txt" hashY)).2.rows = db3.rows ∧
    (Create db3 (recordOf "d.txt" hashX)).2.rows = db3.rows ++ [{ recordOf "d.txt" hashX with ID := 4 }] :=
  ⟨db3_wellFormed, rfl,
    by rw [(Create_keyed_on_location db3 (recordOf "a.txt" hashY)).1 db3_wellFormed rfl
          ⟨{ recordOf "a.txt" hashX with ID := 2 }, by decide, rfl, rfl⟩],
    by rw [(Create_keyed_on_location db3 (recordOf "d.txt" hashX)).2
          (by decide) rfl (Or.inl rfl)]; rfl⟩

/-! ## The batch loop -/

theorem nextID_ne_zero (rows : List File) : nextID rows ≠ 0 := by
  unfold nextID
  omega

theorem DB_Create_cases (db : DB) (f : File) :
    (∃ e, (db.Create f).Error = some e ∧ (db.Create f).db = db) ∨
    ((db.Create f).Error = none ∧ ∃ id, id ≠ 0 ∧
      (db.Create f).db = { db with rows := db.rows ++ [{ f with ID := id }] }) := by
  unfold DB.Create
  cases hw : db.writeFault db.rows f with
  | some e => exact Or.inl ⟨e, rfl, rfl⟩
  | none =>
    by_cases h0 : f.ID = 0
    · rw [if_pos h0]
      exact Or.inr ⟨rfl, nextID db.rows, nextID_ne_zero _, rfl⟩
    · rw [if_neg h0]
      by_cases hany : (db.rows.any (fun r => decide (r.ID = f.ID))) = true
      · rw [if_pos hany]
        exact Or.inl ⟨_, rfl, rfl⟩
      · rw [if_neg hany]
        exact Or.inr ⟨rfl, f.ID, h0, rfl⟩

/-- The three ways `Create` can end on a store that answers its lookups. -/
theorem Create_cases (db : DB) (hwf : db.WellFormed) (hread : db.readFault = none) (f : File) :
    (locationPresent db.rows f.Name f.Path ∧ Create db f = (none, db)) ∨
    (¬ locationPresent db.rows f.Name f.Path ∧ ∃ e, Create db f = (some e, db)) ∨
    (¬ locationPresent db.rows f.Name f.Path ∧ ∃ id, id ≠ 0 ∧
      Create db f = (none, { db with rows := db.rows ++ [{ f with ID := id }] })) := by
  by_cases hp : locationPresent db.rows f.Name f.Path
  · exact Or.inl ⟨hp, Create_of_present db hwf hread f hp⟩
  · rw [Create_of_absent db hwf hread f hp]
    rcases DB_Create_cases db f with ⟨e, he, hdb⟩ | ⟨he, id, hid, hdb⟩
    · exact Or.inr (Or.inl ⟨hp, e, by rw [he, hdb]⟩)
    · exact Or.inr (Or.inr ⟨hp, id, hid, by rw [he, hdb]⟩)

theorem wellFormed_append (db : DB) (hwf : db.WellFormed) (f : File) (id : Nat) (hid : id ≠ 0) :
    DB.WellFormed { db with rows := db.rows ++ [{ f with ID := id }] } := by
  intro r hr
  simp only [List.mem_append, List.mem_singleton] at hr
  rcases hr with hr | rfl
  · exact hwf r hr
  · exact hid

theorem locationPresent_append_left {rows : List File} {name path : String}
    (h : locationPresent rows name path) (ext : List File) :
    locationPresent (rows ++ ext) name path := by
  obtain ⟨r, hr, hn⟩ := h
  exact ⟨r, List.mem_append_left _ hr, hn⟩

/-- What a run of the loop without error leaves behind: a well-formed store
with the same faults, the old rows first, the location of every record of the
batch present, and for every record whose location was neither in the old
index nor among the records before it, that record as a row. -/
theorem saveBatchLoop_ok (batch : List File) :
    ∀ (db tx : DB), db.WellFormed → db.readFault = none →
      saveBatchLoop db batch = (none, tx) →
      tx.WellFormed ∧ tx.readFault = none ∧ tx.writeFault = db.writeFault ∧
      (∃ ext, tx.rows = db.rows ++ ext) ∧
      (∀ f ∈ batch, locationPresent tx.rows f.Name f.Path) ∧
      (∀ pre f suf, batch = pre ++ f :: suf → ¬ locationPresent db.rows f.Name f.Path →
        ¬ locationPresent pre f.Name f.Path → ∃ id, { f with ID := id } ∈ tx.rows) := by
  induction batch with
  | nil =>
    intro db tx hwf hread h
    simp only [saveBatchLoop, Prod.mk.injEq, true_and] at h
    subst h
    refine ⟨hwf, hread, rfl, ⟨[], by simp⟩, by simp, ?_⟩
    intro pre f suf hb
    simp at hb
  | cons g rest ih =>
    intro db tx hwf hread h
    unfold saveBatchLoop at h
    rcases Create_cases db hwf hread g with ⟨hp, hc⟩ | ⟨hp, e, hc⟩ | ⟨hp, id, hid, hc⟩
    · rw [hc] at h
      simp only at h
      obtain ⟨h1, h2, h3, ⟨ext, h4⟩, h5, h6⟩ := ih db tx hwf hread h
      refine ⟨h1, h2, h3, ⟨ext, h4⟩, ?_, ?_⟩
      · intro f hf
        rcases List.mem_cons.mp hf with rfl | hf
        · rw [h4]
          exact locationPresent_append_left hp ext
        · exact h5 f hf
      · intro pre f suf hb habs hpre
        cases pre with
        | nil =>
          simp only [List.nil_append, List.cons.injEq] at hb
          rw [← hb.1] at habs
          exact absurd hp habs
        | cons g1 pre1 =>
          simp only [List.cons_append, List.cons.injEq] at hb
          refine h6 pre1 f suf hb.2 habs ?_
          rintro ⟨r, hr, hn⟩
          exact hpre ⟨r, List.mem_cons_of_mem _ hr, hn⟩
    · rw [hc] at h
      simp at h
    · rw [hc] at h
      simp only at h
      have hwf1 := wellFormed_append db hwf g id hid
      obtain ⟨h1, h2, h3, ⟨ext, h4⟩, h5, h6⟩ := ih _ tx hwf1 hread h
      refine ⟨h1, h2, h3, ⟨{ g with ID := id } :: ext, by rw [h4]; simp⟩, ?_, ?_⟩
      · intro f hf
        rcases List.mem_cons.mp hf with rfl | hf
        · rw [h4]
          exact locationPresent_append_left
            ⟨{ f with ID := id }, by simp, rfl, rfl⟩ ext
        · exact h5 f hf
      · intro pre f suf hb habs hpre
        cases pre with
        | nil =>
          simp only [List.nil_append, List.cons.injEq] at hb
          refine ⟨id, ?_⟩
          rw [h4, ← hb.1]
          simp
        | cons g1 pre1 =>
          simp only [List.cons_append, List.cons.injEq] at hb
          refine h6 pre1 f suf hb.2 ?_ ?_
          · rintro ⟨r, hr, hn⟩
            simp only [List.mem_append, List.mem_singleton] at hr
            rcases hr with hr | rfl
            · exact habs ⟨r, hr, hn⟩
            · exact hpre ⟨g1, List.mem_cons_self _ _, by rw [← hb.1]; exact hn⟩
          · rintro ⟨r, hr, hn⟩
            exact hpre ⟨r, List.mem_cons_of_mem _ hr, hn⟩

/-- A batch whose locations are all in the index is a no-op. -/
theorem saveBatchLoop_noop (batch : List File) (db : DB) (hwf : db.WellFormed)
    (hread : db.readFault = none)
    (h : ∀ f ∈ batch, locationPresent db.rows f.Name f.Path) :
    saveBatchLoop db batch = (none, db) := by
  induction batch with
  | nil => rfl
  | cons g rest ih =>
    unfold saveBatchLoop
    rw [Create_of_present db hwf hread g (h g (List.mem_cons_self _ _))]
    exact ih (fun f hf => h f (List.mem_cons_of_mem _ hf))

theorem saveBatch_eq_of_loop_ok (db tx : DB) (batch : List File)
    (h : saveBatchLoop db batch = (none, tx)) : saveBatch db batch = (none, tx) := by
  unfold saveBatch DB.Transaction
  simp only [h]

theorem saveBatch_eq_of_loop_error (db tx : DB) (batch : List File) (e : Err)
    (h : saveBatchLoop db batch = (some e, tx)) : saveBatch db batch = (some e, db) := by
  unfold saveBatch DB.Transaction
  simp only [h]

theorem loop_ok_of_saveBatch (db tx : DB) (batch : List File)
    (h : saveBatch db batch = (none, tx)) : saveBatchLoop db batch = (none, tx) := by
  unfold saveBatch DB.Transaction at h
  rcases hl : saveBatchLoop db batch with ⟨_ | e, tx1⟩
  · simp only [hl, Prod.mk.injEq, true_and] at h
    rw [h]
  · simp [hl] at h

theorem saveBatchLoop_error_iff (batch : List File) :
    ∀ (db : DB) (e : Err),
      (saveBatchLoop db batch).1 = some e ↔ CreateFailsWith db batch e := by
  induction batch with
  | nil =>
    intro db e
    constructor
    · intro h
      simp [saveBatchLoop] at h
    · rintro ⟨pre, f, suf, tx, tx1, hb, _, _⟩
      simp at hb
  | cons g rest ih =>
    intro db e
    unfold saveBatchLoop
    rcases hc : Create db g with ⟨_ | e1, tx1⟩
    · simp only
      rw [ih tx1 e]
      constructor
      · rintro ⟨pre, f, suf, tx, tx2, hb, hl, hf⟩
        refine ⟨g :: pre, f, suf, tx, tx2, by rw [hb]; rfl, ?_, hf⟩
        unfold saveBatchLoop
        rw [hc]
        exact hl
      · rintro ⟨pre, f, suf, tx, tx2, hb, hl, hf⟩
        cases pre with
        | nil =>
          simp only [List.nil_append, List.cons.injEq] at hb
          simp only [saveBatchLoop, Prod.mk.injEq, true_and] at hl
          rw [← hb.1, ← hl, hc] at hf
          simp at hf
        | cons g1 pre1 =>
          simp only [List.cons_append, List.cons.injEq] at hb
          unfold saveBatchLoop at hl
          rw [← hb.1, hc] at hl
          exact ⟨pre1, f, suf, tx, tx2, hb.2, hl, hf⟩
    · simp only
      constructor
      · intro h
        simp only [Option.some.injEq] at h
        subst h
        exact ⟨[], g, rest, db, tx1, rfl, rfl, hc⟩
      · rintro ⟨pre, f, suf, tx, tx2, hb, hl, hf⟩
        cases pre with
        | nil =>
          simp only [List.nil_append, List.cons.injEq] at hb
          simp only [saveBatchLoop, Prod.mk.injEq, true_and] at hl
          rw [← hb.1, ← hl, hc] at hf
          simp only [Prod.mk.injEq, Option.some.injEq] at hf
          rw [hf.1]
        | cons g1 pre1 =>
          simp only [List.cons_append, List.cons.injEq] at hb
          unfold saveBatchLoop at hl
          rw [← hb.1, hc] at hl
          simp at hl

/-! ## Duplicates after a batch, re-scan, atomicity -/

theorem two_le_countP {p : File → Bool} {l : List File} {a b : File} (ha : a ∈ l) (hb : b ∈ l)
    (hab : a ≠ b) (pa : p a = true) (pb : p b = true) : 2 ≤ l.countP p := by
  induction l with
  | nil => exact absurd ha (List.not_mem_nil _)
  | cons c rest ih =>
    rw [List.countP_cons]
    rcases List.mem_cons.mp ha with rfl | ha1
    · rcases List.mem_cons.mp hb with rfl | hb1
      · exact absurd rfl hab
      · have : 0 < rest.countP p := List.countP_pos_iff.mpr ⟨b, hb1, pb⟩
        simp only [pa, if_true]
        omega
    · rcases List.mem_cons.mp hb with rfl | hb1
      · have : 0 < rest.countP p := List.countP_pos_iff.mpr ⟨a, ha1, pa⟩
        simp only [pb, if_true]
        omega
      · have := ih ha1 hb1
        omega

theorem not_locationPresent_of_pairwise {pre suf : List File} {f : File}
    (h : (pre ++ f :: suf).Pairwise (fun x y => ¬ sameLocation x y)) :
    ¬ locationPresent pre f.Name f.Path := by
  rintro ⟨r, hr, hn⟩
  rw [List.pairwise_append] at h
  exact h.2.2 r hr f (List.mem_cons_self _ _) hn

/-- C4: on a well-formed store that answers its lookups, when saveBatch
persists a batch of records of pairwise different locations, any two records
of the batch that have equal hash and whose locations were not in the index
are both in the list FindDuplicateHashes returns afterwards. On the empty
index, the batch of a.txt and b.txt (content X) and c.txt (content Y) gives
three rows, FindDuplicateHashes returns exactly the rows of a.txt and b.txt,
and CountDuplicateHashes returns 2. -/
theorem saveBatch_duplicates_found :
    (∀ (db db1 : DB) (batch : List File) (a b : File),
      db.WellFormed → db.readFault = none →
      batch.Pairwise (fun x y => ¬ sameLocation x y) →
      a ∈ batch → b ∈ batch → a.Hash = b.Hash → ¬ sameLocation a b →
      ¬ locationPresent db.rows a.Name a.Path → ¬ locationPresent db.rows b.Name b.Path →
      saveBatch db batch = (none, db1) →
      ∃ files ia ib, (FindDuplicateHashes db1).1 = Except.ok files ∧
        { a with ID := ia } ∈ files ∧ { b with ID := ib } ∈ files) ∧
    ((saveBatch emptyDB batchABC).1 = none ∧
      (saveBatch emptyDB batchABC).2.rows =
        [{ recordOf "a.txt" hashX with ID := 1 }, { recordOf "b.txt" hashX with ID := 2 },
         { recordOf "c.txt" hashY with ID := 3 }] ∧
      (FindDuplicateHashes (saveBatch emptyDB batchABC).2).1 =
        Except.ok [{ recordOf "a.txt" hashX with ID := 1 }, { recordOf "b.txt" hashX with ID := 2 }] ∧
      (CountDuplicateHashes (saveBatch emptyDB batchABC).2).1 = Except.ok 2) := by
  refine ⟨?_, rfl, rfl, rfl, rfl⟩
  intro db db1 batch a b hwf hread hpw ha hb hhash hloc habs hbbs hsave
  have hloop := loop_ok_of_saveBatch db db1 batch hsave
  obtain ⟨_, hread1, _, _, _, hvis⟩ := saveBatchLoop_ok batch db db1 hwf hread hloop
  obtain ⟨pa, sa, hda⟩ := List.append_of_mem ha
  obtain ⟨pb, sb, hdb⟩ := List.append_of_mem hb
  obtain ⟨ia, hia⟩ := hvis pa a sa hda habs (not_locationPresent_of_pairwise (hda ▸ hpw))
  obtain ⟨ib, hib⟩ := hvis pb b sb hdb hbbs (not_locationPresent_of_pairwise (hdb ▸ hpw))
  have hne : ({ a with ID := ia } : File) ≠ { b with ID := ib } := by
    intro heq
    apply hloc
    have h1 := congrArg File.Name heq
    have h2 := congrArg File.Path heq
    exact ⟨h1, h2⟩
  have hcount : 2 ≤ db1.rows.countP (fun s => decide (s.Hash = a.Hash)) :=
    two_le_countP hia hib hne (by simp) (by simp [hhash])
  refine ⟨_, ia, ib, congrArg Prod.fst (FindDuplicateHashes_ok db1 hread1), ?_, ?_⟩
  · rw [(orderByHash_perm _).mem_iff, List.mem_filter]
    exact ⟨hia, by simpa [isDuplicate] using hcount⟩
  · rw [(orderByHash_perm _).mem_iff, List.mem_filter]
    refine ⟨hib, ?_⟩
    simp only [isDuplicate, decide_eq_true_eq]
    rw [← hhash]
    exact hcount

theorem emptyDB_wellFormed : emptyDB.WellFormed := by
  intro r hr
  exact absurd hr (List.not_mem_nil _)

/-- Witness of C4: the general statement at the empty index and the batch of
a.txt, b.txt and c.txt, for the two records of content X. -/
theorem saveBatch_duplicates_found_witness :
    ∃ files ia ib, (FindDuplicateHashes (saveBatch emptyDB batchABC).2).1 = Except.ok files ∧
      { recordOf "a.txt" hashX with ID := ia } ∈ files ∧
      { recordOf "b.txt" hashX with ID := ib } ∈ files :=
  saveBatch_duplicates_found.1 emptyDB (saveBatch emptyDB batchABC).2 batchABC
    (recordOf "a.txt" hashX) (recordOf "b.txt" hashX) emptyDB_wellFormed rfl (by decide) (by decide)
    (by decide) rfl (by decide) (by decide) (by decide) rfl

/-- C5: on a well-formed store that answers its lookups, when saveBatch has
persisted a sequence of records without error, persisting the same sequence
again returns no error and leaves the store, hence its rows and their number,
exactly as the first pass left it. -/
theorem saveBatch_rescan_idempotent (db db1 : DB) (files : List File) (hwf : db.WellFormed)
    (hread : db.readFault = none) (hfirst : saveBatch db files = (none, db1)) :
    saveBatch db1 files = (none, db1) ∧
    (saveBatch db1 files).2.rows.length = db1.rows.length := by
  have hloop := loop_ok_of_saveBatch db db1 files hfirst
  obtain ⟨hwf1, hread1, _, _, hpres, _⟩ := saveBatchLoop_ok files db db1 hwf hread hloop
  have h2 := saveBatch_eq_of_loop_ok db1 db1 files (saveBatchLoop_noop files db1 hwf1 hread1 hpres)
  exact ⟨h2, by rw [h2]⟩

/-- Witness of C5: the batch of a.txt, b.txt and c.txt persisted twice into
the empty index leaves the three rows of the first pass. -/
theorem saveBatch_rescan_idempotent_witness :
    (saveBatch emptyDB batchABC).2.rows.length = 3 ∧
    (saveBatch (saveBatch emptyDB batchABC).2 batchABC).2.rows.length = 3 :=
  ⟨rfl, (saveBatch_rescan_idempotent emptyDB (saveBatch emptyDB batchABC).2 batchABC
    emptyDB_wellFormed rfl rfl).2.trans rfl⟩

/-- C7, as stated, fails: on the empty index the batch that names the
location of a.txt twice is persisted without a failing creation, the location
of its second record was absent from the index, and yet that record is not a
row afterwards (the first record took the location inside the transaction). -/
theorem saveBatch_visible_counterexample :
    (saveBatch emptyDB batchAA).1 = none ∧
    (∀ e, ¬ CreateFailsWith emptyDB batchAA e) ∧
    recordOf "a.txt" hashY ∈ batchAA ∧
    ¬ locationPresent emptyDB.rows (recordOf "a.txt" hashY).Name (recordOf "a.txt" hashY).Path ∧
    (saveBatch emptyDB batchAA).2.rows = [{ recordOf "a.txt" hashX with ID := 1 }] ∧
    ¬ ∃ id, { recordOf "a.txt" hashY with ID := id } ∈ (saveBatch emptyDB batchAA).2.rows := by
  refine ⟨rfl, ?_, by decide, by decide, rfl, ?_⟩
  · intro e hfail
    have h := (saveBatchLoop_error_iff batchAA emptyDB e).mpr hfail
    have h0 : (saveBatchLoop emptyDB batchAA).1 = none := rfl
    rw [h0] at h
    exact Option.noConfusion h
  · rintro ⟨id, hid⟩
    have hrows : (saveBatch emptyDB batchAA).2.rows = [{ recordOf "a.txt" hashX with ID := 1 }] := rfl
    rw [hrows, List.mem_singleton] at hid
    have hh : hashY = hashX := congrArg File.Hash hid
    exact absurd hh (by decide)

/-- The three ways `Create` can end, on any store: the location is in the
index and nothing is written, or the insert fails and nothing is written, or
the record is appended. -/
theorem Create_cases_any (db : DB) (f : File) :
    (locationPresent db.rows f.Name f.Path ∧ Create db f = (none, db)) ∨
    (∃ e, Create db f = (some e, db)) ∨
    (∃ id, Create db f = (none, { db with rows := db.rows ++ [{ f with ID := id }] })) := by
  cases hb : (IsFileInSameDir db f.Name f.Path).1 with
  | true =>
    left
    constructor
    · by_contra habs
      rw [IsFileInSameDir_of_absent db f.Name f.Path habs] at hb
      exact Bool.noConfusion hb
    · unfold Create
      simp only [hb, Bool.not_true, Bool.false_eq_true, if_false, IsFileInSameDir_db]
  | false =>
    right
    have hc : Create db f = ((db.Create f).Error, (db.Create f).db) := by
      unfold Create
      simp only [hb, Bool.not_false, if_true, IsFileInSameDir_db]
      cases (db.Create f).Error <;> rfl
    rw [hc]
    rcases DB_Create_cases db f with ⟨e, he, hdb⟩ | ⟨he, id, _, hdb⟩
    · exact Or.inl ⟨e, by rw [he, hdb]⟩
    · exact Or.inr ⟨id, by rw [he, hdb]⟩

/-- What a run of the loop without error leaves behind on any store: the old
rows first, and for every record whose location was neither in the old index
nor among the records before it, that record as a row. -/
theorem saveBatchLoop_visible (batch : List File) :
    ∀ (db tx : DB), saveBatchLoop db batch = (none, tx) →
      (∃ ext, tx.rows = db.rows ++ ext) ∧
      (∀ pre f suf, batch = pre ++ f :: suf → ¬ locationPresent db.rows f.Name f.Path →
        ¬ locationPresent pre f.Name f.Path → ∃ id, { f with ID := id } ∈ tx.rows) := by
  induction batch with
  | nil =>
    intro db tx h
    simp only [saveBatchLoop, Prod.mk.injEq, true_and] at h
    subst h
    refine ⟨⟨[], by simp⟩, ?_⟩
    intro pre f suf hb
    simp at hb
  | cons g rest ih =>
    intro db tx h
    unfold saveBatchLoop at h
    rcases Create_cases_any db g with ⟨hp, hc⟩ | ⟨e, hc⟩ | ⟨id, hc⟩
    · rw [hc] at h
      simp only at h
      obtain ⟨⟨ext, h4⟩, h6⟩ := ih db tx h
      refine ⟨⟨ext, h4⟩, ?_⟩
      intro pre f suf hb habs hpre
      cases pre with
      | nil =>
        simp only [List.nil_append, List.cons.injEq] at hb
        rw [← hb.1] at habs
        exact absurd hp habs
      | cons g1 pre1 =>
        simp only [List.cons_append, List.cons.injEq] at hb
        refine h6 pre1 f suf hb.2 habs ?_
        rintro ⟨r, hr, hn⟩
        exact hpre ⟨r, List.mem_cons_of_mem _ hr, hn⟩
    · rw [hc] at h
      simp at h
    · rw [hc] at h
      simp only at h
      obtain ⟨⟨ext, h4⟩, h6⟩ := ih _ tx h
      refine ⟨⟨{ g with ID := id } :: ext, by rw [h4]; simp⟩, ?_⟩
      intro pre f suf hb habs hpre
      cases pre with
      | nil =>
        simp only [List.nil_append, List.cons.injEq] at hb
        refine ⟨id, ?_⟩
        rw [h4, ← hb.1]
        simp
      | cons g1 pre1 =>
        simp only [List.cons_append, List.cons.injEq] at hb
        refine h6 pre1 f suf hb.2 ?_ ?_
        · rintro ⟨r, hr, hn⟩
          simp only [List.mem_append, List.mem_singleton] at hr
          rcases hr with hr | rfl
          · exact habs ⟨r, hr, hn⟩
          · exact hpre ⟨g1, List.mem_cons_self _ _, by rw [← hb.1]; exact hn⟩
        · rintro ⟨r, hr, hn⟩
          exact hpre ⟨r, List.mem_cons_of_mem _ hr, hn⟩

/-- C7, amended: saveBatch is atomic, for every store and every batch. When
the creation of any record of the batch fails, saveBatch returns that error
and the store is the store before the call. When no creation fails, saveBatch
returns no error, and every record of the batch whose location was absent from
the index and from the records before it in the batch is a row of the index
afterwards. -/
theorem saveBatch_atomic (db : DB) (batch : List File) :
    (∀ e, CreateFailsWith db batch e → saveBatch db batch = (some e, db)) ∧
    ((∀ e, ¬ CreateFailsWith db batch e) →
      (saveBatch db batch).1 = none ∧
      (∀ pre f suf, batch = pre ++ f :: suf →
        ¬ locationPresent db.rows f.Name f.Path → ¬ locationPresent pre f.Name f.Path →
        ∃ id, { f with ID := id } ∈ (saveBatch db batch).2.rows)) := by
  constructor
  · intro e hfail
    have h := (saveBatchLoop_error_iff batch db e).mpr hfail
    rcases hl : saveBatchLoop db batch with ⟨err, tx⟩
    rw [hl] at h
    simp only at h
    subst h
    exact saveBatch_eq_of_loop_error db tx batch e hl
  · intro hnofail
    rcases hl : saveBatchLoop db batch with ⟨_ | e, tx⟩
    · have hs := saveBatch_eq_of_loop_ok db tx batch hl
      refine ⟨by rw [hs], ?_⟩
      intro pre f suf hb habs hpre
      rw [hs]
      exact (saveBatchLoop_visible batch db tx hl).2 pre f suf hb habs hpre
    · exact absurd ((saveBatchLoop_error_iff batch db e).mp (by rw [hl])) (hnofail e)

/-- Witness of C7: with a store that refuses the second insert, the batch of
a.txt, b.txt and c.txt fails at b.txt, the error is returned and the row of
a.txt, created before the failure, is not in the index. -/
theorem saveBatch_atomic_witness :
    CreateFailsWith dbFullAfterOne batchABC "disk full" ∧
    saveBatch dbFullAfterOne batchABC = (some "disk full", dbFullAfterOne) ∧
    (saveBatch dbFullAfterOne batchABC).2.rows = [] ∧
    (∀ e, ¬ CreateFailsWith emptyDB batchABC e) ∧
    (saveBatch emptyDB batchABC).1 = none ∧
    (∃ id, { recordOf "b.txt" hashX with ID := id } ∈ (saveBatch emptyDB batchABC).2.rows) :=
  have hfail : CreateFailsWith dbFullAfterOne batchABC "disk full" :=
    ⟨[recordOf "a.txt" hashX], recordOf "b.txt" hashX, [recordOf "c.txt" hashY],
      (saveBatchLoop dbFullAfterOne [recordOf "a.txt" hashX]).2,
      (saveBatchLoop dbFullAfterOne [recordOf "a.txt" hashX]).2, rfl, rfl, rfl⟩
  have hnofail : ∀ e, ¬ CreateFailsWith emptyDB batchABC e := fun e hf =>
    Option.noConfusion
      ((show (saveBatchLoop emptyDB batchABC).1 = none from rfl).symm.trans
        ((saveBatchLoop_error_iff batchABC emptyDB e).mpr hf))
  ⟨hfail, (saveBatch_atomic dbFullAfterOne batchABC).1 "disk full" hfail,
    by rw [(saveBatch_atomic dbFullAfterOne batchABC).1 "disk full" hfail]; rfl,
    hnofail, ((saveBatch_atomic emptyDB batchABC).2 hnofail).1,
    ((saveBatch_atomic emptyDB batchABC).2 hnofail).2
      [recordOf "a.txt" hashX] (recordOf "b.txt" hashX) [recordOf "c.txt" hashY] rfl (by decide)
      (by decide)⟩

/-! ## Lookup by hash -/

/-- C8, as stated, fails: on the index of three rows with a store whose
lookups fail, FindByHash for the hash of content X returns the empty list and
nothing else, while two rows of the index have that hash (the error of the
statement is dropped). -/
theorem FindByHash_fault_counterexample :
    (FindByHash db3Fault hashX).1 = [] ∧
    db3Fault.rows.filter (fun r => decide (r.Hash = hashX)) =
      [{ recordOf "a.txt" hashX with ID := 2 }, { recordOf "b.txt" hashX with ID := 3 }] ∧
    (FindByHash db3Fault hashX).1 ≠ db3Fault.rows.filter (fun r => decide (r.Hash = hashX)) :=
  ⟨rfl, rfl, by decide⟩

/-- C8, amended: for every store and every hash h, the store after FindByHash
is the store before it, and when the store answers the lookup FindByHash
returns exactly the rows of the index whose Hash equals h, be they none, one
or many, without regard to duplicate status. -/
theorem FindByHash_spec (db : DB) (h : String) :
    (FindByHash db h).2 = db ∧
    (db.readFault = none →
      (FindByHash db h).1 = db.rows.filter (fun r => decide (r.Hash = h)) ∧
      (∀ r, r ∈ (FindByHash db h).1 ↔ r ∈ db.rows ∧ r.Hash = h) ∧
      (FindByHash db h).1.length = db.rows.countP (fun r => decide (r.Hash = h))) := by
  constructor
  · unfold FindByHash DB.Find
    cases db.readFault <;> rfl
  · intro hread
    have hval : (FindByHash db h).1 = db.rows.filter (fun r => decide (r.Hash = h)) := by
      simp only [FindByHash, DB.Find, hread]
    refine ⟨hval, ?_, ?_⟩
    · intro r
      rw [hval]
      simp [List.mem_filter]
    · rw [hval, List.countP_eq_length_filter]

/-- Witness of C8 on the index of three rows: a hash held by two rows, a hash
held by one row and a hash held by none. -/
theorem FindByHash_spec_witness :
    db3.readFault = none ∧
    (FindByHash db3 hashX).1 =
      [{ recordOf "a.txt" hashX with ID := 2 }, { recordOf "b.txt" hashX with ID := 3 }] ∧
    (FindByHash db3 hashY).1 = [{ recordOf "c.txt" hashY with ID := 1 }] ∧
    (FindByHash db3 "00").1 = [] ∧
    (FindByHash db3 hashY).2 = db3 :=
  ⟨rfl, (((FindByHash_spec db3 hashX).2 rfl).1).trans rfl,
    (((FindByHash_spec db3 hashY).2 rfl).1).trans rfl,
    (((FindByHash_spec db3 "00").2 rfl).1).trans rfl,
    (FindByHash_spec db3 hashY).1⟩

/-! ## The streaming pass -/

theorem traverseFn_spec (w : Lib) (e : Explorer) (x : WalkEntry) :
    (traverseFn w e x).2 = none ∧
    (traverseFn w e x).1.filesChan = e.filesChan ++ (forwarded w x).toList ∧
    (traverseFn w e x).1.DB = e.DB := by
  unfold traverseFn forwarded
  cases hx : x.err with
  | some err => simp
  | none =>
    cases hd : x.IsDir with
    | true => simp
    | false =>
      cases hg : getFileInfo w x.path with
      | error err => simp
      | ok f =>
        by_cases hs : f.Size > 0
        · simp [hs]
        · simp [hs]

theorem Walk_traverseFn (w : Lib) (entries : List WalkEntry) :
    ∀ e : Explorer,
      (Walk (traverseFn w) entries e).2 = none ∧
      (Walk (traverseFn w) entries e).1.filesChan =
        e.filesChan ++ entries.filterMap (forwarded w) ∧
      (Walk (traverseFn w) entries e).1.DB = e.DB := by
  induction entries with
  | nil =>
    intro e
    simp [Walk]
  | cons x rest ih =>
    intro e
    obtain ⟨h1, h2, h3⟩ := traverseFn_spec w e x
    unfold Walk
    rcases hfn : traverseFn w e x with ⟨e1, err⟩
    rw [hfn] at h1 h2 h3
    simp only at h1 h2 h3
    subst h1
    simp only
    obtain ⟨i1, i2, i3⟩ := ih e1
    refine ⟨i1, ?_, by rw [i3, h3]⟩
    rw [i2, h2, List.filterMap_cons]
    cases forwarded w x <;> simp

theorem forwarded_size_pos (w : Lib) (x : WalkEntry) (f : File) (h : forwarded w x = some f) :
    0 < f.Size := by
  unfold forwarded at h
  split at h
  · split at h
    · split at h
      · simp only [Option.some.injEq] at h
        subst h
        assumption
      · exact Option.noConfusion h
    · exact Option.noConfusion h
  · exact Option.noConfusion h

/-- C6: for every sequence of visits of the walk, traverseDirectory returns no
error and appends to the record queue exactly the records of the visits that
are met without error, are not directories, and whose metadata extraction
succeeds with Size above 0, in the order of the walk; every record it puts on
the queue has Size above 0, and the pass itself writes nothing to the index. -/
theorem traverseDirectory_forwards (w : Lib) (entries : List WalkEntry) (e : Explorer) :
    (traverseDirectory w entries e).2 = none ∧
    (traverseDirectory w entries e).1.filesChan =
      e.filesChan ++ entries.filterMap (forwarded w) ∧
    (∀ f ∈ entries.filterMap (forwarded w), 0 < f.Size) ∧
    (∀ f ∈ entries.filterMap (forwarded w), ∃ x ∈ entries, x.err = none ∧ x.IsDir = false ∧
      getFileInfo w x.path = Except.ok f) ∧
    (traverseDirectory w entries e).1.DB = e.DB := by
  obtain ⟨h1, h2, h3⟩ := Walk_traverseFn w entries e
  refine ⟨h1, h2, ?_, ?_, h3⟩
  · intro f hf
    obtain ⟨x, _, hx⟩ := List.mem_filterMap.mp hf
    exact forwarded_size_pos w x f hx
  · intro f hf
    obtain ⟨x, hxm, hx⟩ := List.mem_filterMap.mp hf
    refine ⟨x, hxm, ?_⟩
    unfold forwarded at hx
    split at hx
    · rename_i hc
      refine ⟨hc.1, hc.2, ?_⟩
      split at hx
      · split at hx
        · simp only [Option.some.injEq] at hx
          subst hx
          assumption
        · exact Option.noConfusion hx
      · exact Option.noConfusion hx
    · exact Option.noConfusion hx

/-! ## File types -/

theorem foldLoop_stop (rest : Nat → Nat) (n sr tr r : Nat) (h : ¬ (r ≠ sr ∧ r < tr)) :
    foldLoop rest n sr tr r = r := by
  cases n with
  | zero => rfl
  | succ n => simp only [foldLoop, h, if_false]

theorem foldLoop_step (rest : Nat → Nat) (n sr tr r : Nat) (h : r ≠ sr ∧ r < tr) :
    foldLoop rest (n + 1) sr tr r = foldLoop rest n sr tr (SimpleFold rest r) := by
  simp only [foldLoop, h, and_self, if_true, ne_eq, not_false_eq_true]

theorem SimpleFold_upper (rest : Nat → Nat) (r : Nat) (h : 65 ≤ r ∧ r ≤ 90) :
    SimpleFold rest r = r + 32 := by
  simp only [SimpleFold, h, and_self, if_true]

theorem SimpleFold_lower (rest : Nat → Nat) (r : Nat) (h : 97 ≤ r ∧ r ≤ 122) :
    SimpleFold rest r = if r = 107 then 0x212A else if r = 115 then 0x17F else r - 32 := by
  have h1 : ¬ (65 ≤ r ∧ r ≤ 90) := by omega
  simp only [SimpleFold, h1, h, and_self, if_true, if_false]

theorem SimpleFold_digit (rest : Nat → Nat) (r : Nat) (h : 48 ≤ r ∧ r ≤ 57) :
    SimpleFold rest r = r := by
  have h1 : ¬ (65 ≤ r ∧ r ≤ 90) := by omega
  have h2 : ¬ (97 ≤ r ∧ r ≤ 122) := by omega
  have h3 : r ≠ 107 := by omega
  have h4 : r ≠ 115 := by omega
  have h5 : r < 128 := by omega
  simp only [SimpleFold, h1, h2, h3, h4, h5, if_true, if_false]

theorem SimpleFold_kelvin (rest : Nat → Nat) : SimpleFold rest 0x212A = 75 := by
  simp [SimpleFold]

theorem SimpleFold_longs (rest : Nat → Nat) : SimpleFold rest 0x17F = 83 := by
  simp [SimpleFold]

/-- Where the orbit loop of `EqualFold` ends when it starts from a lower-case
letter or digit `lo` and looks for a rune `hi` outside ASCII. -/
theorem foldLoop_lower (rest : Nat → Nat) (lo hi : Nat) (ht : lowerAlnum lo) (hhi : 128 ≤ hi) :
    foldLoop rest 4 lo hi (SimpleFold rest lo) = hi ↔ foldKey hi = lo := by
  have hk : foldKey hi = if hi = 0x212A then 107 else if hi = 0x17F then 115 else hi := by
    have h1 : ¬ (65 ≤ hi ∧ hi ≤ 90) := by omega
    simp only [foldKey, h1, if_false]
  rw [hk]
  rcases ht with ht | ht
  · rw [SimpleFold_lower rest lo ht]
    by_cases hlk : lo = 107
    · subst hlk
      simp only [if_true]
      by_cases hlt : 0x212A < hi
      · rw [foldLoop_step rest 3 107 hi 0x212A ⟨by omega, hlt⟩, SimpleFold_kelvin,
          foldLoop_step rest 2 107 hi 75 ⟨by omega, by omega⟩, SimpleFold_upper rest 75 (by omega),
          foldLoop_stop rest 2 107 hi (75 + 32) (by omega)]
        split_ifs <;> omega
      · rw [foldLoop_stop rest 4 107 hi 0x212A (by omega)]
        split_ifs <;> omega
    · by_cases hls : lo = 115
      · subst hls
        simp only [if_true, if_false, hlk]
        by_cases hlt : 0x17F < hi
        · rw [foldLoop_step rest 3 115 hi 0x17F ⟨by omega, hlt⟩, SimpleFold_longs,
            foldLoop_step rest 2 115 hi 83 ⟨by omega, by omega⟩,
            SimpleFold_upper rest 83 (by omega),
            foldLoop_stop rest 2 115 hi (83 + 32) (by omega)]
          split_ifs <;> omega
        · rw [foldLoop_stop rest 4 115 hi 0x17F (by omega)]
          split_ifs <;> omega
      · simp only [hlk, hls, if_false]
        rw [foldLoop_step rest 3 lo hi (lo - 32) ⟨by omega, by omega⟩,
          SimpleFold_upper rest (lo - 32) (by omega),
          foldLoop_stop rest 3 lo hi (lo - 32 + 32) (by omega)]
        split_ifs <;> omega
  · rw [SimpleFold_digit rest lo ht, foldLoop_stop rest 4 lo hi lo (by omega)]
    split_ifs <;> omega

theorem runeEqualFold_iff (rest : Nat → Nat) (sr tr : Nat) (ht : lowerAlnum tr) :
    runeEqualFold rest sr tr = true ↔ foldKey sr = tr := by
  unfold runeEqualFold
  by_cases h1 : tr = sr
  · subst h1
    simp only [if_true, true_iff]
    unfold lowerAlnum at ht
    unfold foldKey
    split_ifs <;> omega
  · simp only [h1, if_false]
    by_cases h2 : tr < sr
    · simp only [h2, if_true]
      by_cases h3 : sr < 128
      · simp only [h3, if_true, decide_eq_true_eq]
        unfold lowerAlnum at ht
        unfold foldKey
        split_ifs <;> omega
      · simp only [h3, if_false, decide_eq_true_eq]
        exact foldLoop_lower rest tr sr ht (by omega)
    · simp only [h2, if_false]
      unfold lowerAlnum at ht
      have h3 : tr < 128 := by omega
      simp only [h3, if_true, decide_eq_true_eq]
      unfold foldKey
      split_ifs <;> omega

theorem EqualFoldRunes_iff (rest : Nat → Nat) (s : List Nat) :
    ∀ t : List Nat, (∀ r ∈ t, lowerAlnum r) →
      (EqualFoldRunes rest s t = true ↔ s.map foldKey = t) := by
  induction s with
  | nil =>
    intro t _
    cases t <;> simp [EqualFoldRunes]
  | cons sr s ih =>
    intro t ht
    cases t with
    | nil => simp [EqualFoldRunes]
    | cons tr t =>
      have h1 := runeEqualFold_iff rest sr tr (ht tr (List.mem_cons_self _ _))
      have h2 := ih t (fun r hr => ht r (List.mem_cons_of_mem _ hr))
      simp only [EqualFoldRunes, Bool.and_eq_true, List.map_cons, List.cons.injEq, h1, h2]

/-- Against a word of small letters and digits, `EqualFold` is equality of
the fold keys, whatever the orbits outside ASCII. -/
theorem EqualFold_iff (rest : Nat → Nat) (s e : String) (he : ∀ r ∈ runes e, lowerAlnum r) :
    EqualFold rest s e = true ↔ (runes s).map foldKey = runes e :=
  EqualFoldRunes_iff rest (runes s) (runes e) he

theorem tables_lowerAlnum :
    ∀ e ∈ VideoExtensions ++ ImageExtensions ++ DocumentExtensions,
      ∀ r ∈ runes e, lowerAlnum r := by
  decide

theorem video_image_disjoint :
    ∀ v ∈ VideoExtensions, ∀ w ∈ ImageExtensions, runes v ≠ runes w := by
  decide

theorem video_document_disjoint :
    ∀ v ∈ VideoExtensions, ∀ w ∈ DocumentExtensions, runes v ≠ runes w := by
  decide

theorem image_document_disjoint :
    ∀ v ∈ ImageExtensions, ∀ w ∈ DocumentExtensions, runes v ≠ runes w := by
  decide

theorem EqualFold_tables_disjoint (rest : Nat → Nat) (ext v w : String)
    (hv : ∀ r ∈ runes v, lowerAlnum r) (hw : ∀ r ∈ runes w, lowerAlnum r)
    (hne : runes v ≠ runes w) (h1 : EqualFold rest ext v = true)
    (h2 : EqualFold rest ext w = true) : False :=
  hne (((EqualFold_iff rest ext v hv).mp h1).symm.trans ((EqualFold_iff rest ext w hw).mp h2))

theorem IsVideoFile_iff (rest : Nat → Nat) (ext : String) :
    IsVideoFile rest ext = true ↔ ∃ e ∈ VideoExtensions, EqualFold rest ext e = true := by
  simp only [IsVideoFile, List.any_eq_true]

theorem IsImageFile_iff (rest : Nat → Nat) (ext : String) :
    IsImageFile rest ext = true ↔ ∃ e ∈ ImageExtensions, EqualFold rest ext e = true := by
  simp only [IsImageFile, List.any_eq_true]

theorem IsDocumentFile_iff (rest : Nat → Nat) (ext : String) :
    IsDocumentFile rest ext = true ↔ ∃ e ∈ DocumentExtensions, EqualFold rest ext e = true := by
  simp only [IsDocumentFile, List.any_eq_true]

theorem not_video_and_image (rest : Nat → Nat) (ext : String)
    (h1 : IsVideoFile rest ext = true) (h2 : IsImageFile rest ext = true) : False := by
  obtain ⟨v, hv, hev⟩ := (IsVideoFile_iff rest ext).mp h1
  obtain ⟨w, hw, hew⟩ := (IsImageFile_iff rest ext).mp h2
  exact EqualFold_tables_disjoint rest ext v w
    (tables_lowerAlnum v (by simp [hv])) (tables_lowerAlnum w (by simp [hw]))
    (video_image_disjoint v hv w hw) hev hew

theorem not_video_and_document (rest : Nat → Nat) (ext : String)
    (h1 : IsVideoFile rest ext = true) (h2 : IsDocumentFile rest ext = true) : False := by
  obtain ⟨v, hv, hev⟩ := (IsVideoFile_iff rest ext).mp h1
  obtain ⟨w, hw, hew⟩ := (IsDocumentFile_iff rest ext).mp h2
  exact EqualFold_tables_disjoint rest ext v w
    (tables_lowerAlnum v (by simp [hv])) (tables_lowerAlnum w (by simp [hw]))
    (video_document_disjoint v hv w hw) hev hew

theorem not_image_and_document (rest : Nat → Nat) (ext : String)
    (h1 : IsImageFile rest ext = true) (h2 : IsDocumentFile rest ext = true) : False := by
  obtain ⟨v, hv, hev⟩ := (IsImageFile_iff rest ext).mp h1
  obtain ⟨w, hw, hew⟩ := (IsDocumentFile_iff rest ext).mp h2
  exact EqualFold_tables_disjoint rest ext v w
    (tables_lowerAlnum v (by simp [hv])) (tables_lowerAlnum w (by simp [hw]))
    (image_document_disjoint v hv w hw) hev hew

/-- The class GetFiletype returns in terms of the matches of `EqualFold`: one
of the four, and each one exactly when the extension matches an entry of the
table of that class. -/
theorem GetFiletype_EqualFold (rest : Nat → Nat) (ext : String) :
    (GetFiletype rest ext = "video" ∨ GetFiletype rest ext = "image" ∨
      GetFiletype rest ext = "document" ∨ GetFiletype rest ext = "other") ∧
    (GetFiletype rest ext = "video" ↔
      ∃ e ∈ VideoExtensions, EqualFold rest ext e = true) ∧
    (GetFiletype rest ext = "image" ↔
      ∃ e ∈ ImageExtensions, EqualFold rest ext e = true) ∧
    (GetFiletype rest ext = "document" ↔
      ∃ e ∈ DocumentExtensions, EqualFold rest ext e = true) ∧
    (GetFiletype rest ext = "other" ↔
      ∀ e ∈ VideoExtensions ++ ImageExtensions ++ DocumentExtensions,
        EqualFold rest ext e = false) ∧
    GetFiletype rest "" = "other" := by
  have hvi : ("video" : String) ≠ "image" := by decide
  have hvd : ("video" : String) ≠ "document" := by decide
  have hvo : ("video" : String) ≠ "other" := by decide
  have hid : ("image" : String) ≠ "document" := by decide
  have hio : ("image" : String) ≠ "other" := by decide
  have hdo : ("document" : String) ≠ "other" := by decide
  have hother : (∀ e ∈ VideoExtensions ++ ImageExtensions ++ DocumentExtensions,
      EqualFold rest ext e = false) ↔
      (IsVideoFile rest ext = false ∧ IsImageFile rest ext = false ∧
        IsDocumentFile rest ext = false) := by
    simp only [IsVideoFile, IsImageFile, IsDocumentFile, List.any_eq_false, List.mem_append,
      Bool.not_eq_true]
    constructor
    · intro h
      exact ⟨fun e he => h e (Or.inl (Or.inl he)), fun e he => h e (Or.inl (Or.inr he)),
        fun e he => h e (Or.inr he)⟩
    · rintro ⟨h1, h2, h3⟩ e ((he | he) | he)
      · exact h1 e he
      · exact h2 e he
      · exact h3 e he
  rw [← IsVideoFile_iff, ← IsImageFile_iff, ← IsDocumentFile_iff, hother]
  refine ⟨?_, ?_, ?_, ?_, ?_, rfl⟩
  all_goals unfold GetFiletype
  all_goals
    cases hv : IsVideoFile rest ext <;> cases hi : IsImageFile rest ext <;>
      cases hd : IsDocumentFile rest ext
  all_goals
    first
      | exact absurd (not_video_and_image rest ext hv hi) id
      | exact absurd (not_video_and_document rest ext hv hd) id
      | exact absurd (not_image_and_document rest ext hi hd) id
      | simp [hvi, hvd, hvo, hid, hio, hdo, hvi.symm, hvd.symm, hvo.symm, hid.symm, hio.symm,
          hdo.symm]

theorem foldKey_lower (r : Nat) (h : lowerAlnum r) : foldKey r = r := by
  unfold lowerAlnum at h
  unfold foldKey
  split_ifs <;> omega

theorem map_foldKey_lower (l : List Nat) (h : ∀ r ∈ l, lowerAlnum r) : l.map foldKey = l := by
  induction l with
  | nil => rfl
  | cons r rest ih =>
    rw [List.map_cons, foldKey_lower r (h r (List.mem_cons_self _ _)),
      ih (fun x hx => h x (List.mem_cons_of_mem _ hx))]

/-- Against an entry of the three tables, the match of `EqualFold` is equality
but for case, whatever the case orbits outside ASCII. -/
theorem EqualFold_table (rest : Nat → Nat) (ext e : String)
    (he : e ∈ VideoExtensions ++ ImageExtensions ++ DocumentExtensions) :
    EqualFold rest ext e = true ↔ equalsIgnoringCase ext e := by
  unfold equalsIgnoringCase
  rw [map_foldKey_lower (runes e) (tables_lowerAlnum e he)]
  exact EqualFold_iff rest ext e (tables_lowerAlnum e he)

/-- C9: for every extension string GetFiletype returns one of video, image,
document and other: video exactly when the extension equals, but for case, an
entry of VideoExtensions, image exactly when an entry of ImageExtensions,
document exactly when an entry of DocumentExtensions, and other for every
other string, the empty string included. Equality but for case is stated on
the runes (capitals as small letters, the Kelvin sign as k, the long s as s)
and is what EqualFold computes against the entries; mp4, MKV, Jpg and PDF are
classified, exe is not. -/
theorem GetFiletype_spec (rest : Nat → Nat) (ext : String) :
    (GetFiletype rest ext = "video" ∨ GetFiletype rest ext = "image" ∨
      GetFiletype rest ext = "document" ∨ GetFiletype rest ext = "other") ∧
    (GetFiletype rest ext = "video" ↔
      ∃ e ∈ VideoExtensions, equalsIgnoringCase ext e) ∧
    (GetFiletype rest ext = "image" ↔
      ∃ e ∈ ImageExtensions, equalsIgnoringCase ext e) ∧
    (GetFiletype rest ext = "document" ↔
      ∃ e ∈ DocumentExtensions, equalsIgnoringCase ext e) ∧
    (GetFiletype rest ext = "other" ↔
      ∀ e ∈ VideoExtensions ++ ImageExtensions ++ DocumentExtensions,
        ¬ equalsIgnoringCase ext e) ∧
    (∀ e ∈ VideoExtensions ++ ImageExtensions ++ DocumentExtensions,
      (EqualFold rest ext e = true ↔ equalsIgnoringCase ext e)) ∧
    GetFiletype rest "" = "other" ∧ GetFiletype rest "mp4" = "video" ∧
    GetFiletype rest "MKV" = "video" ∧ GetFiletype rest "Jpg" = "image" ∧
    GetFiletype rest "PDF" = "document" ∧ GetFiletype rest "exe" = "other" := by
  obtain ⟨h1, h2, h3, h4, h5, _⟩ := GetFiletype_EqualFold rest ext
  have hV : ∀ e ∈ VideoExtensions,
      e ∈ VideoExtensions ++ ImageExtensions ++ DocumentExtensions :=
    fun e he => List.mem_append_left _ (List.mem_append_left _ he)
  have hI : ∀ e ∈ ImageExtensions,
      e ∈ VideoExtensions ++ ImageExtensions ++ DocumentExtensions :=
    fun e he => List.mem_append_left _ (List.mem_append_right _ he)
  have hD : ∀ e ∈ DocumentExtensions,
      e ∈ VideoExtensions ++ ImageExtensions ++ DocumentExtensions :=
    fun e he => List.mem_append_right _ he
  refine ⟨h1, h2.trans ?_, h3.trans ?_, h4.trans ?_, h5.trans ?_,
    fun e he => EqualFold_table rest ext e he, rfl, rfl, rfl, rfl, rfl, rfl⟩
  · exact ⟨fun ⟨e, he, hm⟩ => ⟨e, he, (EqualFold_table rest ext e (hV e he)).mp hm⟩,
      fun ⟨e, he, hm⟩ => ⟨e, he, (EqualFold_table rest ext e (hV e he)).mpr hm⟩⟩
  · exact ⟨fun ⟨e, he, hm⟩ => ⟨e, he, (EqualFold_table rest ext e (hI e he)).mp hm⟩,
      fun ⟨e, he, hm⟩ => ⟨e, he, (EqualFold_table rest ext e (hI e he)).mpr hm⟩⟩
  · exact ⟨fun ⟨e, he, hm⟩ => ⟨e, he, (EqualFold_table rest ext e (hD e he)).mp hm⟩,
      fun ⟨e, he, hm⟩ => ⟨e, he, (EqualFold_table rest ext e (hD e he)).mpr hm⟩⟩
  · constructor
    · intro h e he hm
      have := (EqualFold_table rest ext e he).mpr hm
      rw [h e he] at this
      exact Bool.noConfusion this
    · intro h e he
      cases hb : EqualFold rest ext e with
      | false => rfl
      | true => exact absurd ((EqualFold_table rest ext e he).mp hb) (h e he)

/-! ## The extension of a record -/

theorem ExtLoop_no_dot (xs acc : List Char) (h : '.' ∉ xs) : ExtLoop xs acc = [] := by
  induction xs generalizing acc with
  | nil => rfl
  | cons c xs ih =>
    have hc : c ≠ '.' := fun hc => h (by rw [hc]; exact List.mem_cons_self _ _)
    have hxs : '.' ∉ xs := fun hm => h (List.mem_cons_of_mem _ hm)
    unfold ExtLoop
    by_cases hs : c = '/'
    · simp only [hs, if_true]
    · simp only [hs, hc, if_false]
      exact ih (c :: acc) hxs

theorem ExtLoop_dot (xs ys acc : List Char) (hdot : '.' ∉ xs) (hsep : '/' ∉ xs) :
    ExtLoop (xs ++ '.' :: ys) acc = '.' :: (xs.reverse ++ acc) := by
  induction xs generalizing acc with
  | nil =>
    simp [ExtLoop]
  | cons c xs ih =>
    have hc : c ≠ '.' := fun hc => hdot (by rw [hc]; exact List.mem_cons_self _ _)
    have hs : c ≠ '/' := fun hc => hsep (by rw [hc]; exact List.mem_cons_self _ _)
    have hxs : '.' ∉ xs := fun hm => hdot (List.mem_cons_of_mem _ hm)
    have hxs2 : '/' ∉ xs := fun hm => hsep (List.mem_cons_of_mem _ hm)
    rw [List.cons_append]
    unfold ExtLoop
    simp only [hs, hc, if_false]
    rw [ih (c :: acc) hxs hxs2]
    simp

theorem Ext_no_dot (name : String) (h : '.' ∉ name.data) : Ext name = "" := by
  unfold Ext
  rw [ExtLoop_no_dot name.data.reverse [] (by simpa using h)]

theorem Ext_last_dot (name : String) (pre suf : List Char) (hname : name.data = pre ++ '.' :: suf)
    (hdot : '.' ∉ suf) (hsep : '/' ∉ suf) : Ext name = String.mk ('.' :: suf) := by
  unfold Ext
  have hrev : name.data.reverse = suf.reverse ++ '.' :: pre.reverse := by
    rw [hname]
    simp
  rw [hrev, ExtLoop_dot suf.reverse pre.reverse [] (by simpa using hdot) (by simpa using hsep)]
  simp

/-- C10, as stated, fails: for the file named PHOTO.JPG getFileInfo builds a
record whose Ext is `JPG`, the suffix in the case of the name, and not the
lower-cased `jpg`. -/
theorem getFileInfo_ext_counterexample :
    ∃ f, getFileInfo libPhoto "/d/PHOTO.JPG" = Except.ok f ∧ f.Name = "PHOTO.JPG" ∧
      f.Ext = "JPG" ∧ f.Ext ≠ "jpg" :=
  ⟨_, rfl, rfl, rfl, by decide⟩

/-- C10, amended: when the file at the path opens, is not a directory and is
read without error, getFileInfo builds a record with the name of the file, and
for a name without path separator the Ext field is the part of the name after
its last dot, without the dot and in the case of the name, and is empty when
the name has no dot. -/
theorem getFileInfo_ext (w : Lib) (path : String) (file : OSFile)
    (hopen : w.Open path = Except.ok file) (hstat : file.statErr = none)
    (hdir : file.IsDir = false) (hseek : file.seekErr = none) (hread : file.readErr = none)
    (hsep : '/' ∉ file.Name.data) :
    ∃ f, getFileInfo w path = Except.ok f ∧ f.Name = file.Name ∧
      ('.' ∉ file.Name.data → f.Ext = "") ∧
      (∀ pre suf, file.Name.data = pre ++ '.' :: suf → '.' ∉ suf → f.Ext = String.mk suf) := by
  unfold getFileInfo GetFileHash
  simp only [hopen, hstat, hdir, hseek, hread, Bool.false_eq_true, if_false]
  refine ⟨_, rfl, rfl, ?_, ?_⟩
  · intro hno
    simp only [Ext_no_dot file.Name hno, ne_eq, not_true_eq_false, if_false]
  · intro pre suf hname hdot
    have hsuf : '/' ∉ suf := fun hm => hsep (by rw [hname]; simp [hm])
    have hne : String.mk ('.' :: suf) ≠ "" := by
      intro h
      have := congrArg String.data h
      simp at this
    simp only [Ext_last_dot file.Name pre suf hname hdot hsuf, hne, ne_eq, not_false_eq_true,
      if_true, List.drop_succ_cons, List.drop_zero]

/-- Witness of C10: the record of PHOTO.JPG has the Ext `JPG`. -/
theorem getFileInfo_ext_witness :
    ∃ f, getFileInfo libPhoto "/d/PHOTO.JPG" = Except.ok f ∧ f.Name = "PHOTO.JPG" ∧
      f.Ext = String.mk ['J', 'P', 'G'] :=
  match getFileInfo_ext libPhoto "/d/PHOTO.JPG"
      { statErr := none, Name := "PHOTO.JPG", IsDir := false, Size := 3, offset := 0,
        seekErr := none, readErr := none, content := [1, 2, 3] }
      rfl rfl rfl rfl rfl (by decide) with
  | ⟨f, hf, hn, _, hext⟩ =>
    ⟨f, hf, hn, hext ['P', 'H', 'O', 'T', 'O'] ['J', 'P', 'G'] rfl (by decide)⟩

/-! ## The batches of one worker -/

theorem flush_saved (s : Worker) (msg : String) : (s.flush msg).saved = s.saved ++ [s.batch] :=
  rfl

theorem flush_batch (s : Worker) (msg : String) : (s.flush msg).batch = s.batch :=
  rfl

theorem flush_BatchSize (s : Worker) (msg : String) :
    (s.flush msg).e.BatchSize = s.e.BatchSize :=
  rfl

theorem flush_counter (s : Worker) (msg : String) :
    (s.flush msg).e.progress.ProcessedFiles = wrapInt64 (s.e.progress.ProcessedFiles + 1) :=
  rfl

theorem wrapInt64_succ (c : Int) (k : Nat) :
    wrapInt64 (wrapInt64 (c + k) + 1) = wrapInt64 (c + ((k + 1 : Nat) : Int)) := by
  unfold wrapInt64
  push_cast
  omega

theorem wrapInt64_of_range (c : Int) (h1 : -9223372036854775808 ≤ c)
    (h2 : c < 9223372036854775808) : wrapInt64 c = c := by
  unfold wrapInt64
  omega

/-- One round of the loop when the batch has room for the record. -/
theorem processStep_keep (b : Nat) (s : Worker) (f : File) (hsize : s.e.BatchSize = (b : Int))
    (hlen : s.batch.length + 1 < b) :
    processStep s f = { s with batch := s.batch ++ [f] } := by
  unfold processStep
  have hnot : ¬ (((s.batch ++ [f]).length : Int) ≥ s.e.BatchSize) := by
    rw [hsize, List.length_append, List.length_singleton]
    omega
  simp only [hnot, if_false]

/-- One round of the loop when the record fills the batch. -/
theorem processStep_full (b : Nat) (s : Worker) (f : File) (hsize : s.e.BatchSize = (b : Int))
    (hlen : b ≤ s.batch.length + 1) :
    processStep s f =
      { (Worker.flush { s with batch := s.batch ++ [f] } "error guardando lote: ") with
        batch := [] } := by
  unfold processStep
  have hge : ((s.batch ++ [f]).length : Int) ≥ s.e.BatchSize := by
    rw [hsize, List.length_append, List.length_singleton]
    omega
  simp only [hge, if_true]

/-- The invariant of the loop of `processFiles`: the batches flushed so far
have `b` records each, the local batch has fewer, nothing is lost or
reordered, and the counter has moved by the number of flushes. -/
theorem processLoop_inv (b : Nat) (hb : 1 ≤ b) (drained : List File) :
    ∀ s : Worker, s.e.BatchSize = (b : Int) → s.batch.length < b →
      (∀ x ∈ s.saved, x.length = b) →
      (drained.foldl processStep s).e.BatchSize = (b : Int) ∧
      (drained.foldl processStep s).batch.length < b ∧
      (∀ x ∈ (drained.foldl processStep s).saved, x.length = b) ∧
      (drained.foldl processStep s).saved.flatten ++ (drained.foldl processStep s).batch =
        s.saved.flatten ++ s.batch ++ drained ∧
      ∃ k : Nat, (drained.foldl processStep s).saved.length = s.saved.length + k ∧
        k * b + (drained.foldl processStep s).batch.length = s.batch.length + drained.length ∧
        (wrapInt64 s.e.progress.ProcessedFiles = s.e.progress.ProcessedFiles →
          (drained.foldl processStep s).e.progress.ProcessedFiles =
            wrapInt64 (s.e.progress.ProcessedFiles + k)) := by
  induction drained with
  | nil =>
    intro s hsize hlen hsaved
    refine ⟨hsize, hlen, hsaved, by simp, 0, by simp, by simp, ?_⟩
    intro hrange
    simp only [List.foldl_nil, Nat.cast_zero, add_zero]
    exact hrange.symm
  | cons f rest ih =>
    intro s hsize hlen hsaved
    rw [List.foldl_cons]
    by_cases hfull : b ≤ s.batch.length + 1
    · have hstep := processStep_full b s f hsize hfull
      have hbl : (s.batch ++ [f]).length = b := by
        rw [List.length_append, List.length_singleton]
        omega
      have h1 : (processStep s f).e.BatchSize = (b : Int) := by rw [hstep]; exact hsize
      have h2 : (processStep s f).batch = [] := by rw [hstep]
      have h3 : (processStep s f).saved = s.saved ++ [s.batch ++ [f]] := by rw [hstep]; rfl
      have h4 : (processStep s f).e.progress.ProcessedFiles =
          wrapInt64 (s.e.progress.ProcessedFiles + 1) := by rw [hstep]; rfl
      obtain ⟨i1, i2, i3, i4, k, i5, i6, i7⟩ := ih (processStep s f) h1
        (by rw [h2]; exact hb)
        (by
          intro x hx
          rw [h3, List.mem_append, List.mem_singleton] at hx
          rcases hx with hx | rfl
          · exact hsaved x hx
          · exact hbl)
      refine ⟨i1, i2, i3, ?_, k + 1, ?_, ?_, ?_⟩
      · rw [i4, h2, h3]
        simp
      · rw [i5, h3, List.length_append, List.length_singleton]
        omega
      · rw [h2, List.length_nil] at i6
        rw [List.length_append, List.length_singleton] at hbl
        rw [List.length_cons, Nat.add_mul, Nat.one_mul]
        omega
      · intro _
        rw [i7 (by rw [h4]; unfold wrapInt64; omega), h4]
        unfold wrapInt64
        push_cast
        omega
    · have hstep := processStep_keep b s f hsize (by omega)
      have h1 : (processStep s f).e.BatchSize = (b : Int) := by rw [hstep]; exact hsize
      have h2 : (processStep s f).batch = s.batch ++ [f] := by rw [hstep]
      have h3 : (processStep s f).saved = s.saved := by rw [hstep]
      have h4 : (processStep s f).e.progress.ProcessedFiles = s.e.progress.ProcessedFiles := by
        rw [hstep]
      obtain ⟨i1, i2, i3, i4, k, i5, i6, i7⟩ := ih (processStep s f) h1
        (by rw [h2, List.length_append, List.length_singleton]; omega)
        (by rw [h3]; exact hsaved)
      refine ⟨i1, i2, i3, ?_, k, ?_, ?_, ?_⟩
      · rw [i4, h2, h3]
        simp
      · rw [i5, h3]
      · rw [i6, h2, List.length_append, List.length_singleton, List.length_cons]
        omega
      · intro hrange
        rw [i7 (by rw [h4]; exact hrange), h4]

/-- The loop of `processFiles` from its start, after the records `xs`: full
batches only, `xs.length / b` of them, and the rest of `xs` in the local
batch. -/
theorem processLoop_start (e : Explorer) (b : Nat) (hb : 1 ≤ b)
    (hsize : e.BatchSize = (b : Int)) (xs : List File) :
    (∀ x ∈ (xs.foldl processStep (Worker.start e)).saved, x.length = b) ∧
    (xs.foldl processStep (Worker.start e)).saved.flatten ++
      (xs.foldl processStep (Worker.start e)).batch = xs ∧
    (xs.foldl processStep (Worker.start e)).saved.length = xs.length / b ∧
    (xs.foldl processStep (Worker.start e)).batch.length = xs.length % b ∧
    (wrapInt64 e.progress.ProcessedFiles = e.progress.ProcessedFiles →
      (xs.foldl processStep (Worker.start e)).e.progress.ProcessedFiles =
        wrapInt64 (e.progress.ProcessedFiles + ((xs.length / b : Nat) : Int))) := by
  obtain ⟨_, h2, h3, h4, k, h5, h6, h7⟩ :=
    processLoop_inv b hb xs (Worker.start e) hsize (by simp only [Worker.start]; exact hb)
      (by intro x hx; exact absurd hx (List.not_mem_nil _))
  have hs0 : (Worker.start e).saved = [] := rfl
  have hb0 : (Worker.start e).batch = [] := rfl
  have he0 : (Worker.start e).e = e := rfl
  simp only [hs0, hb0, he0, List.flatten_nil, List.nil_append, List.length_nil, Nat.zero_add]
    at h4 h5 h6 h7
  have hdm : xs.length / b = k ∧ xs.length % b =
      (xs.foldl processStep (Worker.start e)).batch.length :=
    (Nat.div_mod_unique hb).mpr ⟨by rw [← h6, Nat.mul_comm]; omega, h2⟩
  refine ⟨h3, h4, by rw [h5, hdm.1], hdm.2.symm, ?_⟩
  intro hrange
  rw [hdm.1]
  exact h7 hrange

theorem ceilDiv_eq (n b : Nat) (hb : 1 ≤ b) :
    ceilDiv n b = n / b + (if n % b = 0 then 0 else 1) := by
  unfold ceilDiv
  have hdm := Nat.div_add_mod n b
  by_cases hr : n % b = 0
  · simp only [hr, if_true, Nat.add_zero]
    have : (n + b - 1) / b = n / b ∧ (n + b - 1) % b = b - 1 :=
      (Nat.div_mod_unique hb).mpr ⟨by rw [hr] at hdm; omega, by omega⟩
    exact this.1
  · simp only [hr, if_false]
    have hlt := Nat.mod_lt n hb
    have : (n + b - 1) / b = n / b + 1 ∧ (n + b - 1) % b = n % b - 1 :=
      (Nat.div_mod_unique hb).mpr ⟨by rw [Nat.mul_add, Nat.mul_one]; omega, by omega⟩
    exact this.1

/-- C11: for every batch size b of at least 1 and every sequence of records
one worker drains, the batches processFiles hands to saveBatch, put together
in the order of the calls, are the drained sequence; every batch but the last
has exactly b records, every batch has between 1 and b records, and no batch
is empty. -/
theorem processFiles_batches (e : Explorer) (b : Nat) (hb : 1 ≤ b)
    (hsize : e.BatchSize = (b : Int)) (drained : List File) :
    (processFiles e drained).saved.flatten = drained ∧
    (∀ x ∈ (processFiles e drained).saved.dropLast, x.length = b) ∧
    (∀ x ∈ (processFiles e drained).saved, 1 ≤ x.length ∧ x.length ≤ b) ∧
    [] ∉ (processFiles e drained).saved := by
  obtain ⟨h1, h2, _, h4, _⟩ := processLoop_start e b hb hsize drained
  have hlt := Nat.mod_lt drained.length hb
  have hall : ∀ x ∈ (processFiles e drained).saved, 1 ≤ x.length ∧ x.length ≤ b := by
    intro x hx
    unfold processFiles at hx
    by_cases hpos : (drained.foldl processStep (Worker.start e)).batch.length > 0
    · simp only [hpos, if_true, flush_saved, List.mem_append, List.mem_singleton] at hx
      rcases hx with hx | rfl
      · have := h1 x hx
        omega
      · omega
    · simp only [hpos, if_false] at hx
      have := h1 x hx
      omega
  refine ⟨?_, ?_, hall, ?_⟩
  · unfold processFiles
    by_cases hpos : (drained.foldl processStep (Worker.start e)).batch.length > 0
    · simp only [hpos, if_true, flush_saved, List.flatten_append, List.flatten_cons,
        List.flatten_nil, List.append_nil]
      exact h2
    · simp only [hpos, if_false]
      have hnil : (drained.foldl processStep (Worker.start e)).batch = [] :=
        List.eq_nil_of_length_eq_zero (by omega)
      rw [hnil, List.append_nil] at h2
      exact h2
  · intro x hx
    unfold processFiles at hx
    by_cases hpos : (drained.foldl processStep (Worker.start e)).batch.length > 0
    · simp only [hpos, if_true, flush_saved, List.dropLast_concat] at hx
      exact h1 x hx
    · simp only [hpos, if_false] at hx
      exact h1 x (List.mem_of_mem_dropLast hx)
  · intro hmem
    have := (hall [] hmem).1
    simp at this

/-- Witness of C11: five records with batch size 2 are flushed as two batches
of two records and a last batch of one. -/
theorem processFiles_batches_witness :
    ((processFiles (explorerOf 2) fiveRecords).saved.map List.length = [2, 2, 1]) ∧
    (processFiles (explorerOf 2) fiveRecords).saved.flatten = fiveRecords :=
  ⟨rfl, (processFiles_batches (explorerOf 2) 2 (by decide) rfl fiveRecords).1⟩

/-! ## The progress counter of one worker -/

theorem loop_counter (e : Explorer) (b : Nat) (hb : 1 ≤ b) (hsize : e.BatchSize = (b : Int))
    (xs : List File) (hlow : -9223372036854775808 ≤ e.progress.ProcessedFiles)
    (hhigh : e.progress.ProcessedFiles + ((xs.length / b : Nat) : Int) < 9223372036854775808) :
    (xs.foldl processStep (Worker.start e)).e.progress.ProcessedFiles =
      e.progress.ProcessedFiles + ((xs.length / b : Nat) : Int) := by
  have hq : (0 : Int) ≤ ((xs.length / b : Nat) : Int) := Int.natCast_nonneg _
  have h := (processLoop_start e b hb hsize xs).2.2.2.2
    (wrapInt64_of_range _ hlow (by linarith))
  rw [h]
  exact wrapInt64_of_range _ (by linarith) hhigh

theorem div_le_ceilDiv (n m b : Nat) (hb : 1 ≤ b) (h : n ≤ m) : n / b ≤ ceilDiv m b := by
  rw [ceilDiv_eq m b hb]
  have := Nat.div_le_div_right (c := b) h
  omega

/-- C12: for every batch size b of at least 1 and every sequence of n records
one worker drains, with a counter that stays within int64, processFiles calls
saveBatch ceil(n / b) times and leaves ProcessedFiles exactly ceil(n / b)
above its start, whatever the store answers to the calls; after any part of
the sequence the counter stands at the start plus the number of full batches
so far, so that it never decreases along the run. -/
theorem processFiles_progress (e : Explorer) (b : Nat) (hb : 1 ≤ b)
    (hsize : e.BatchSize = (b : Int)) (drained : List File)
    (hlow : -9223372036854775808 ≤ e.progress.ProcessedFiles)
    (hhigh : e.progress.ProcessedFiles + ((ceilDiv drained.length b : Nat) : Int) <
      9223372036854775808) :
    (processFiles e drained).saved.length = ceilDiv drained.length b ∧
    (processFiles e drained).e.progress.ProcessedFiles =
      e.progress.ProcessedFiles + ((ceilDiv drained.length b : Nat) : Int) ∧
    (∀ xs ys, drained = xs ++ ys →
      (xs.foldl processStep (Worker.start e)).e.progress.ProcessedFiles =
        e.progress.ProcessedFiles + ((xs.length / b : Nat) : Int)) ∧
    (∀ xs ys zs, drained = xs ++ ys ++ zs →
      e.progress.ProcessedFiles ≤
        (xs.foldl processStep (Worker.start e)).e.progress.ProcessedFiles ∧
      (xs.foldl processStep (Worker.start e)).e.progress.ProcessedFiles ≤
        ((xs ++ ys).foldl processStep (Worker.start e)).e.progress.ProcessedFiles ∧
      ((xs ++ ys).foldl processStep (Worker.start e)).e.progress.ProcessedFiles ≤
        (processFiles e drained).e.progress.ProcessedFiles) := by
  have hpart : ∀ xs : List File, xs.length ≤ drained.length →
      (xs.foldl processStep (Worker.start e)).e.progress.ProcessedFiles =
        e.progress.ProcessedFiles + ((xs.length / b : Nat) : Int) := by
    intro xs hle
    have hq : ((xs.length / b : Nat) : Int) ≤ ((ceilDiv drained.length b : Nat) : Int) :=
      Int.ofNat_le.mpr (div_le_ceilDiv xs.length drained.length b hb hle)
    exact loop_counter e b hb hsize xs hlow (by linarith)
  obtain ⟨_, _, h3, h4, _⟩ := processLoop_start e b hb hsize drained
  have hloop := hpart drained (Nat.le_refl _)
  have hceil := ceilDiv_eq drained.length b hb
  have hfinal : (processFiles e drained).saved.length = ceilDiv drained.length b ∧
      (processFiles e drained).e.progress.ProcessedFiles =
        e.progress.ProcessedFiles + ((ceilDiv drained.length b : Nat) : Int) := by
    unfold processFiles
    by_cases hpos : (drained.foldl processStep (Worker.start e)).batch.length > 0
    · have hr : ¬ drained.length % b = 0 := by omega
      simp only [hr, if_false] at hceil
      have hq : (0 : Int) ≤ ((drained.length / b : Nat) : Int) := Int.natCast_nonneg _
      have hc : ((ceilDiv drained.length b : Nat) : Int) =
          ((drained.length / b : Nat) : Int) + 1 := by
        rw [hceil]
        push_cast
        rfl
      simp only [hpos, if_true, flush_saved, flush_counter, List.length_append,
        List.length_singleton, h3, hloop, hceil, true_and]
      rw [hc] at hhigh
      push_cast
      rw [← add_assoc]
      exact wrapInt64_of_range _ (by linarith) (by linarith)
    · have hr : drained.length % b = 0 := by omega
      simp only [hr, if_true, Nat.add_zero] at hceil
      simp only [hpos, if_false, h3, hloop, hceil, and_self]
  refine ⟨hfinal.1, hfinal.2, ?_, ?_⟩
  · intro xs ys hd
    exact hpart xs (by rw [hd, List.length_append]; omega)
  · intro xs ys zs hd
    have hl1 : xs.length ≤ (xs ++ ys).length := by rw [List.length_append]; omega
    have hl2 : (xs ++ ys).length ≤ drained.length := by
      rw [hd, List.length_append (xs ++ ys) zs]
      omega
    rw [hpart xs (le_trans hl1 hl2), hpart (xs ++ ys) hl2, hfinal.2]
    have d0 : (0 : Int) ≤ ((xs.length / b : Nat) : Int) := Int.natCast_nonneg _
    have d1 : ((xs.length / b : Nat) : Int) ≤ (((xs ++ ys).length / b : Nat) : Int) :=
      Int.ofNat_le.mpr (Nat.div_le_div_right (c := b) hl1)
    have d2 : ((((xs ++ ys).length / b : Nat)) : Int) ≤ ((ceilDiv drained.length b : Nat) : Int) :=
      Int.ofNat_le.mpr (div_le_ceilDiv (xs ++ ys).length drained.length b hb hl2)
    exact ⟨by linarith, by linarith, by linarith⟩

/-- Witness of C12: five records with batch size 2 move the counter from 0 to
3, also over a store on which two of the three calls of saveBatch fail. -/
theorem processFiles_progress_witness :
    (processFiles (explorerOf 2) fiveRecords).e.progress.ProcessedFiles = 3 ∧
    (processFiles explorerFailing fiveRecords).e.progress.ProcessedFiles = 3 ∧
    (processFiles explorerFailing fiveRecords).e.errorsChan.length = 2 :=
  ⟨(processFiles_progress (explorerOf 2) 2 (by decide) rfl fiveRecords (by decide)
      (by decide)).2.1.trans rfl,
    (processFiles_progress explorerFailing 2 (by decide) rfl fiveRecords (by decide)
      (by decide)).2.1.trans rfl, rfl⟩

/-! ## The content hash -/

theorem hextable_getD_mem (i : Nat) (h : i < 16) : hextable.getD i '0' ∈ hextable := by
  interval_cases i <;> decide

theorem EncodeToString_length (src : List Nat) :
    (EncodeToString src).length = 2 * src.length := by
  unfold EncodeToString
  show (src.flatMap _).length = 2 * src.length
  induction src with
  | nil => rfl
  | cons v rest ih =>
    rw [List.flatMap_cons, List.length_append, ih, List.length_cons]
    simp only [List.length_cons, List.length_nil]
    omega

theorem EncodeToString_hex (src : List Nat) :
    ∀ c ∈ (EncodeToString src).data, c ∈ hextable := by
  unfold EncodeToString
  intro c hc
  simp only [List.mem_flatMap, List.mem_cons, List.mem_singleton, List.not_mem_nil,
    or_false] at hc
  obtain ⟨v, _, hv | hv⟩ := hc
  · rw [hv]
    exact hextable_getD_mem _ (by omega)
  · rw [hv]
    exact hextable_getD_mem _ (by omega)

theorem GetFileHash_ok (w : Lib) (file : OSFile) (hseek : file.seekErr = none)
    (hread : file.readErr = none) :
    GetFileHash w file = Except.ok (EncodeToString (w.Sum256 file.content)) := by
  unfold GetFileHash
  simp only [hseek, hread, List.drop_zero]

theorem GetFileHash_value (w : Lib) (file : OSFile) (h : String)
    (hok : GetFileHash w file = Except.ok h) :
    h = EncodeToString (w.Sum256 file.content) := by
  unfold GetFileHash at hok
  cases hs : file.seekErr with
  | some err =>
    simp only [hs] at hok
    exact Except.noConfusion hok
  | none =>
    cases hr : file.readErr with
    | some err =>
      simp only [hs, hr] at hok
      exact Except.noConfusion hok
    | none =>
      simp only [hs, hr, List.drop_zero, Except.ok.injEq] at hok
      exact hok.symm

/-- A record that `getFileInfo` returns with a size above 0 carries the hash
of the bytes of its file. -/
theorem getFileInfo_hash (w : Lib) (path : String) (f : File)
    (hok : getFileInfo w path = Except.ok f) (hsize : 0 < f.Size) :
    ∃ file, w.Open path = Except.ok file ∧
      f.Hash = EncodeToString (w.Sum256 file.content) := by
  unfold getFileInfo at hok
  split at hok
  · exact Except.noConfusion hok
  · rename_i file hopen
    split at hok
    · exact Except.noConfusion hok
    · split at hok
      · simp only [Except.ok.injEq] at hok
        rw [← hok] at hsize
        exact absurd hsize (by decide)
      · split at hok
        · exact Except.noConfusion hok
        · rename_i checksum hsum
          simp only [Except.ok.injEq] at hok
          refine ⟨file, hopen, ?_⟩
          rw [← hok]
          exact GetFileHash_value w file checksum hsum

/-- C14: with a digest of 32 bytes, GetFileHash on a file that seeks and reads
without error returns the hexadecimal form of the digest of the bytes of the
file: 64 characters, each one of 0-9 and a-f; two files of the same bytes get
the same string whatever their names and read positions; and every record
traverseDirectory puts on the record queue has a Hash of 64 characters, so a
non-empty one. -/
theorem GetFileHash_spec (w : Lib) (hsum : ∀ bytes, (w.Sum256 bytes).length = 32) :
    (∀ file : OSFile, file.seekErr = none → file.readErr = none →
      ∃ h, GetFileHash w file = Except.ok h ∧ h = EncodeToString (w.Sum256 file.content) ∧
        h.length = 64 ∧ ∀ c ∈ h.data, c ∈ "0123456789abcdef".data) ∧
    (∀ file1 file2 : OSFile, file1.content = file2.content →
      file1.seekErr = none → file1.readErr = none →
      file2.seekErr = none → file2.readErr = none →
      GetFileHash w file1 = GetFileHash w file2) ∧
    (∀ (entries : List WalkEntry) (e : Explorer),
      ∀ f ∈ (traverseDirectory w entries e).1.filesChan,
        f ∈ e.filesChan ∨ (f.Hash.length = 64 ∧ f.Hash ≠ "")) := by
  have hlen : ∀ bytes, (EncodeToString (w.Sum256 bytes)).length = 64 := by
    intro bytes
    rw [EncodeToString_length, hsum]
  refine ⟨?_, ?_, ?_⟩
  · intro file hseek hread
    exact ⟨_, GetFileHash_ok w file hseek hread, rfl, hlen _, EncodeToString_hex _⟩
  · intro file1 file2 hc hs1 hr1 hs2 hr2
    rw [GetFileHash_ok w file1 hs1 hr1, GetFileHash_ok w file2 hs2 hr2, hc]
  · intro entries e f hf
    have hq := (Walk_traverseFn w entries e).2.1
    unfold traverseDirectory at hf
    rw [hq, List.mem_append] at hf
    rcases hf with hf | hf
    · exact Or.inl hf
    · right
      obtain ⟨x, _, hx⟩ := List.mem_filterMap.mp hf
      have hpos := forwarded_size_pos w x f hx
      have hget : getFileInfo w x.path = Except.ok f := by
        unfold forwarded at hx
        split at hx
        · split at hx
          · split at hx
            · simp only [Option.some.injEq] at hx
              subst hx
              assumption
            · exact Option.noConfusion hx
          · exact Option.noConfusion hx
        · exact Option.noConfusion hx
      obtain ⟨file, _, hhash⟩ := getFileInfo_hash w x.path f hget hpos
      have h64 : f.Hash.length = 64 := by rw [hhash]; exact hlen _
      refine ⟨h64, ?_⟩
      intro hempty
      rw [hempty] at h64
      exact absurd h64 (by decide)

theorem libDigest_length (bytes : List Nat) : (libDigest.Sum256 bytes).length = 32 := by
  simp [libDigest]

/-- Witness of C14: two files of the same three bytes, under two names and at
two read positions, get the same hash of 64 characters. -/
theorem GetFileHash_spec_witness :
    GetFileHash libDigest osFileA = GetFileHash libDigest osFileB ∧
    ∃ h, GetFileHash libDigest osFileA = Except.ok h ∧ h.length = 64 :=
  ⟨(GetFileHash_spec libDigest libDigest_length).2.1 osFileA osFileB rfl rfl rfl rfl rfl,
    match (GetFileHash_spec libDigest libDigest_length).1 osFileA rfl rfl with
    | ⟨h, hok, _, hl, _⟩ => ⟨h, hok, hl⟩⟩

/-! ## The duplicate set is closed under grouping -/

theorem two_mul_length_le_sum (L : List String) (c : String → Nat) (h : ∀ x ∈ L, 2 ≤ c x) :
    2 * L.length ≤ (L.map c).sum := by
  induction L with
  | nil => simp
  | cons x rest ih =>
    have hx := h x (List.mem_cons_self _ _)
    have hrest := ih (fun y hy => h y (List.mem_cons_of_mem _ hy))
    simp only [List.length_cons, List.map_cons, List.sum_cons]
    omega

/-- In a list in which every hash that occurs occurs at least twice, there are
at least twice as many entries as distinct hashes. -/
theorem two_mul_distinct_le_length (hashes : List String)
    (h : ∀ x ∈ hashes, 2 ≤ hashes.count x) : 2 * hashes.dedup.length ≤ hashes.length := by
  have hsum := List.sum_map_count_dedup_eq_length hashes
  have := two_mul_length_le_sum hashes.dedup (fun x => hashes.count x)
    (fun x hx => h x (List.mem_dedup.mp hx))
  omega

/-- Among the rows the duplicate query selects, a hash occurs as often as in
the whole index. -/
theorem countP_duplicates (rows : List File) (f : File) (hf : isDuplicate rows f = true) :
    (rows.filter (isDuplicate rows)).countP (fun g => decide (g.Hash = f.Hash)) =
      rows.countP (fun g => decide (g.Hash = f.Hash)) := by
  rw [List.countP_filter]
  apply List.countP_congr
  intro g _
  simp only [Bool.and_eq_true, decide_eq_true_eq]
  constructor
  · exact fun hg => hg.1
  · intro hg
    refine ⟨hg, ?_⟩
    unfold isDuplicate at hf ⊢
    rw [hg]
    exact hf

/-- C16: when the store answers the query, every hash that occurs in the
result of FindDuplicateHashes occurs in it at least twice; the number
CountDuplicateHashes returns is 0 or at least 2, never 1, and is at least
twice the number of distinct hashes of the result. -/
theorem duplicates_closed_under_grouping (db : DB) (hread : db.readFault = none) :
    ∃ files n, (FindDuplicateHashes db).1 = Except.ok files ∧
      (CountDuplicateHashes db).1 = Except.ok n ∧
      (∀ f ∈ files, 2 ≤ files.countP (fun g => decide (g.Hash = f.Hash))) ∧
      (n = 0 ∨ 2 ≤ n) ∧ n ≠ 1 ∧
      2 * ((files.map (fun f => f.Hash)).dedup).length ≤ n := by
  have hperm := orderByHash_perm (db.rows.filter (isDuplicate db.rows))
  have hcount : ∀ f ∈ orderByHash (db.rows.filter (isDuplicate db.rows)),
      2 ≤ (orderByHash (db.rows.filter (isDuplicate db.rows))).countP
        (fun g => decide (g.Hash = f.Hash)) := by
    intro f hf
    have hmem := hperm.mem_iff.mp hf
    rw [List.mem_filter] at hmem
    rw [hperm.countP_eq, countP_duplicates db.rows f hmem.2]
    simpa [isDuplicate] using hmem.2
  have hdistinct : 2 * (((orderByHash (db.rows.filter (isDuplicate db.rows))).map
      (fun f => f.Hash)).dedup).length ≤
      (orderByHash (db.rows.filter (isDuplicate db.rows))).length := by
    have h := two_mul_distinct_le_length
      ((orderByHash (db.rows.filter (isDuplicate db.rows))).map (fun f => f.Hash)) (by
        intro x hx
        obtain ⟨f, hf, hfx⟩ := List.mem_map.mp hx
        have h2 := hcount f hf
        rw [List.count, List.countP_map]
        have hcongr : (orderByHash (db.rows.filter (isDuplicate db.rows))).countP
            ((fun y => y == x) ∘ fun f => f.Hash) =
            (orderByHash (db.rows.filter (isDuplicate db.rows))).countP
              (fun g => decide (g.Hash = f.Hash)) := by
          apply List.countP_congr
          intro g _
          simp [hfx]
        rw [hcongr]
        exact h2)
    rw [List.length_map] at h
    exact h
  have hne : (orderByHash (db.rows.filter (isDuplicate db.rows))).length ≠ 1 := by
    intro h1
    cases hl : orderByHash (db.rows.filter (isDuplicate db.rows)) with
    | nil => rw [hl] at h1; simp at h1
    | cons f rest =>
      have h2 := hcount f (by rw [hl]; exact List.mem_cons_self _ _)
      have h3 := List.countP_le_length (fun g => decide (g.Hash = f.Hash))
        (l := orderByHash (db.rows.filter (isDuplicate db.rows)))
      omega
  refine ⟨_, _, congrArg Prod.fst (FindDuplicateHashes_ok db hread),
    congrArg Prod.fst (CountDuplicateHashes_ok db hread), hcount, ?_, hne, hdistinct⟩
  omega

/-- Witness of C16 on the index of three rows: one shared hash, two rows. -/
theorem duplicates_closed_under_grouping_witness :
    db3.readFault = none ∧
    ∃ files n, (FindDuplicateHashes db3).1 = Except.ok files ∧
      (CountDuplicateHashes db3).1 = Except.ok n ∧
      (∀ f ∈ files, 2 ≤ files.countP (fun g => decide (g.Hash = f.Hash))) ∧
      (n = 0 ∨ 2 ≤ n) ∧ n ≠ 1 ∧
      2 * ((files.map (fun f => f.Hash)).dedup).length ≤ n :=
  ⟨rfl, duplicates_closed_under_grouping db3 rfl⟩

/-! ## The counting pass and traversal errors -/

/-- The counting pass ends with an error as soon as the walk meets one. -/
theorem countFiles_error (entries : List WalkEntry) (h : ∃ x ∈ entries, x.err ≠ none) :
    ∀ count : Int, ∃ err, (Walk countFn entries count).2 = some err := by
  induction entries with
  | nil =>
    obtain ⟨x, hx, _⟩ := h
    exact absurd hx (List.not_mem_nil _)
  | cons y rest ih =>
    intro count
    unfold Walk
    cases hy : y.err with
    | some err =>
      refine ⟨err, ?_⟩
      simp only [countFn, hy]
    | none =>
      have hrest : ∃ x ∈ rest, x.err ≠ none := by
        obtain ⟨x, hx, hne⟩ := h
        rcases List.mem_cons.mp hx with rfl | hx
        · exact absurd hy hne
        · exact ⟨x, hx, hne⟩
      cases hd : y.IsDir with
      | true =>
        simp only [countFn, hy, hd, Bool.not_true, Bool.false_eq_true, if_false]
        exact ih hrest count
      | false =>
        simp only [countFn, hy, hd, Bool.not_false, if_true]
        exact ih hrest _

/-- Whenever the walk meets a traversal error, `Scan` prints the error of the
counting pass and returns before the streaming pass: nothing is put on the
record queue and nothing on the error queue. -/
theorem Scan_of_traversal_error (w : Lib) (entries : List WalkEntry) (e : Explorer)
    (h : ∃ x ∈ entries, x.err ≠ none) :
    (Scan w entries e).1.filesChan = e.filesChan ∧
    (Scan w entries e).1.errorsChan = e.errorsChan ∧
    ∃ err, (Scan w entries e).2 = ["Error contando archivos: " ++ err] := by
  obtain ⟨err, herr⟩ := countFiles_error entries h 0
  have hc : (countFiles entries).2 = some err := herr
  have hscan : Scan w entries e =
      ({ e with progress := { e.progress with TotalFiles := (countFiles entries).1 } },
        ["Error contando archivos: " ++ err]) := by
    unfold Scan
    simp only [hc]
  rw [hscan]
  exact ⟨rfl, rfl, err, rfl⟩

/-- C13, at the failing input: for the directory `/d` with the files a.txt and
z.txt and the unreadable directory `locked`, the counting pass counts one file
and stops at `locked` with the error, Scan prints it and returns with nothing
on the record queue and nothing on the error queue, although the streaming
pass on the same walk reports the error and goes on to forward both files. -/
theorem Scan_aborts_at_traversal_error :
    countFiles walkLocked = (1, some "open /d/locked: permission denied") ∧
    (Scan libLocked walkLocked (explorerOf 100)).2 =
      ["Error contando archivos: open /d/locked: permission denied"] ∧
    (Scan libLocked walkLocked (explorerOf 100)).1.filesChan = [] ∧
    (Scan libLocked walkLocked (explorerOf 100)).1.errorsChan = [] ∧
    (traverseDirectory libLocked walkLocked (explorerOf 100)).2 = none ∧
    (traverseDirectory libLocked walkLocked (explorerOf 100)).1.filesChan.map
      (fun f => f.Name) = ["a.txt", "z.txt"] ∧
    (traverseDirectory libLocked walkLocked (explorerOf 100)).1.errorsChan =
      ["error accediendo a /d/locked: open /d/locked: permission denied"] :=
  ⟨rfl, rfl, rfl, rfl, rfl, rfl, rfl⟩

/-! ## Pagination -/

/-- For a positive page size the last page is the whole quotient of the items
by the page size, and 1 when there are fewer items than a page holds: the
test of the remainder against the page size never holds. -/
theorem NewPagination_pageLast (currentPage itemsPerPage totalItems : Nat)
    (h : 0 < itemsPerPage) :
    ∃ p, NewPagination currentPage itemsPerPage totalItems = some p ∧
      p.ItemsPerPage = itemsPerPage ∧ p.TotalItems = totalItems ∧
      p.PageLast = (if totalItems ≥ itemsPerPage then totalItems / itemsPerPage else 1) ∧
      1 ≤ p.PageLast := by
  have hmod : ¬ (totalItems % itemsPerPage > itemsPerPage) := by
    have := Nat.mod_lt totalItems h
    omega
  have hne : itemsPerPage ≠ 0 := by omega
  unfold NewPagination Pagination.calculatePages
  by_cases hge : totalItems ≥ itemsPerPage
  · have hq : 1 ≤ totalItems / itemsPerPage := (Nat.one_le_div_iff h).mpr hge
    simp only [hge, hne, hmod, if_true, if_false]
    split_ifs <;> exact ⟨_, rfl, rfl, rfl, rfl, hq⟩
  · simp only [hge, if_false]
    split_ifs <;> exact ⟨_, rfl, rfl, rfl, rfl, Nat.le_refl 1⟩

/-- C17, at the failing input: for 7 items in pages of 5, NewPagination
returns the last page 1, and one page of 5 does not hold the 7 items; the
remainder 2 has added no page. -/
theorem NewPagination_remainder_dropped :
    ∃ p, NewPagination 1 5 7 = some p ∧ p.PageLast = 1 ∧ p.ItemsPerPage = 5 ∧
      p.TotalItems = 7 ∧ 7 % 5 = 2 ∧ p.PageLast * p.ItemsPerPage < p.TotalItems :=
  ⟨_, rfl, rfl, rfl, rfl, rfl, by decide⟩

end Duplicheck
